import Mathlib

/-!
Verification development for the v-sftp server (Go).

The server confines each authenticated user to a per-user root directory,
gates every SFTP operation behind a permission bitmask, and resolves every
client-supplied path inside the user's root.  This file models the relevant
code (handlers.go, store.go, main.go) over a shallow embedding:

* Go strings are modeled as `List Char` (`GoStr`); the Go standard library
  functions used by the code (`strings.HasPrefix`, `strings.TrimPrefix`,
  `strings.TrimSpace`, `path/filepath.Clean`, `Join`, `Abs`, `Rel`, `Dir`)
  are modeled for the unix flavor (`filepath.Separator = '/'`,
  `filepath.VolumeName = ""`, `filepath.FromSlash = id`, `runtime.GOOS`
  is not `"windows"`).
* The filesystem is an association list from absolute paths to nodes;
  every mutating OS call made by the handlers is additionally recorded in
  an event trace, so that statements about "which filesystem mutations
  happened" can be made precisely.
* `os.Getwd` is modeled as an explicit `cwd` parameter (assumed absolute,
  as the OS guarantees); with that, `filepath.Abs` and `filepath.Rel`
  never fail on the inputs that occur here, so the only resolution failure
  is the sandbox "access denied" error, exactly as in the code.
-/

/-- Go strings, as lists of characters. -/
abbrev GoStr := List Char

/-- Convenience conversion from Lean string literals. -/
def gs (s : String) : GoStr := s.data

/-- `strings.HasPrefix s pre` (Go). -/
def goHasPre : GoStr → GoStr → Bool
  | _, [] => true
  | [], _ :: _ => false
  | c :: s, d :: pre => c = d && goHasPre s pre

/-- `strings.TrimPrefix s pre` (Go): removes `pre` once if present. -/
def goTrimPre (s pre : GoStr) : GoStr :=
  if goHasPre s pre then s.drop pre.length else s

/-- Whitespace as recognized by Go's `unicode.IsSpace` (the characters that
can occur in this context). -/
def isSpaceG (c : Char) : Bool :=
  c = ' ' || c = '\t' || c = '\n' || c = '\r' || c = Char.ofNat 11 || c = Char.ofNat 12

/-- `strings.TrimSpace` (Go). -/
def goTrimSpace (s : GoStr) : GoStr :=
  ((s.dropWhile isSpaceG).reverse.dropWhile isSpaceG).reverse

/-- `strings.Split s "/"` (Go): split on the path separator. -/
def splitOnSlash : GoStr → List GoStr
  | [] => [[]]
  | c :: rest =>
    if c = '/' then [] :: splitOnSlash rest
    else
      match splitOnSlash rest with
      | [] => [[c]]
      | seg :: segs => (c :: seg) :: segs

/-- Join pieces with the path separator (inverse of `splitOnSlash`). -/
def joinSlash : List GoStr → GoStr
  | [] => []
  | [seg] => seg
  | seg :: rest => seg ++ '/' :: joinSlash rest

/-- The path-element stack machine of `filepath.Clean` for a rooted path:
empty and `.` elements are dropped, `..` pops the last element (or is
dropped at the root), other elements are pushed.  `stack` holds the output
elements in reverse. -/
def cleanStackR (stack : List GoStr) : List GoStr → List GoStr
  | [] => stack.reverse
  | s :: rest =>
    if s = [] ∨ s = ['.'] then cleanStackR stack rest
    else if s = ['.', '.'] then cleanStackR stack.tail rest
    else cleanStackR (s :: stack) rest

/-- The path-element stack machine of `filepath.Clean` for a non-rooted
path: as `cleanStackR`, except a `..` that cannot backtrack is kept. -/
def cleanStackNR (stack : List GoStr) : List GoStr → List GoStr
  | [] => stack.reverse
  | s :: rest =>
    if s = [] ∨ s = ['.'] then cleanStackNR stack rest
    else if s = ['.', '.'] then
      match stack with
      | [] => cleanStackNR [['.', '.']] rest
      | t :: ts =>
        if t = ['.', '.'] then cleanStackNR (['.', '.'] :: t :: ts) rest
        else cleanStackNR ts rest
    else cleanStackNR (s :: stack) rest

/-- Is the path rooted (begins with the separator)? Models
`os.IsPathSeparator(path[0])` / `filepath.IsAbs` on unix. -/
def isAbsG (s : GoStr) : Bool :=
  match s with
  | [] => false
  | c :: _ => c = '/'

/-- Render a rooted path from its clean elements. -/
def renderR (l : List GoStr) : GoStr := '/' :: joinSlash l

/-- `filepath.Clean` (Go, unix). -/
def goClean (p : GoStr) : GoStr :=
  if p = [] then ['.']
  else if isAbsG p then renderR (cleanStackR [] (splitOnSlash p))
  else
    let out := cleanStackNR [] (splitOnSlash p)
    if out = [] then ['.'] else joinSlash out

/-- `filepath.Join a b` (Go, unix): empty elements are dropped, the rest
joined with the separator, and the result cleaned. -/
def goJoin (a b : GoStr) : GoStr :=
  if a = [] ∧ b = [] then []
  else if a = [] then goClean b
  else if b = [] then goClean a
  else goClean (a ++ '/' :: b)

/-- `filepath.Abs` (Go, unix) with `os.Getwd` passed in as `cwd`. -/
def goAbs (cwd p : GoStr) : GoStr :=
  if isAbsG p then goClean p else goJoin cwd p

/-- The segments of a path: its non-empty separator-separated pieces. -/
def segsOf (s : GoStr) : List GoStr :=
  (splitOnSlash s).filter (fun x => !x.isEmpty)

/-- Strip the common leading elements of two segment lists (the positioning
loop of `filepath.Rel`). -/
def relSegs : List GoStr → List GoStr → List GoStr × List GoStr
  | b :: bs, t :: ts => if b = t then relSegs bs ts else (b :: bs, t :: ts)
  | bs, ts => (bs, ts)

/-- `filepath.Rel base targ` (Go, unix). -/
def goRel (basepath targpath : GoStr) : Except Unit GoStr :=
  let base := goClean basepath
  let targ := goClean targpath
  if targ = base then .ok ['.']
  else
    let base2 := if base = ['.'] then [] else base
    if (isAbsG base2 = isAbsG targ) = false then .error ()
    else
      let pr := relSegs (segsOf base2) (segsOf targ)
      if pr.1.head? = some ['.', '.'] then .error ()
      else .ok (joinSlash (List.replicate pr.1.length ['.', '.'] ++ pr.2))

/-- `filepath.Dir` (Go, unix): everything up to and including the final
separator, cleaned; `.` when there is no separator. -/
def goDir (p : GoStr) : GoStr :=
  let pre := (p.reverse.dropWhile (fun c => !(c = '/'))).reverse
  if pre = [] then ['.'] else goClean pre

deriving instance DecidableEq for Except

-- Sanity checks against the behavior of the Go functions.
example : goClean (gs "a/./b/../../c/") = gs "c" := by decide
example : goClean (gs "/../a") = gs "/a" := by decide
example : goClean (gs "a/../..") = gs ".." := by decide
example : goClean (gs "") = gs "." := by decide
example : goClean (gs "/") = gs "/" := by decide
example : goJoin (gs "/base") (gs "../x") = gs "/x" := by decide
example : goRel (gs "/root") (gs "/root/a/b") = .ok (gs "a/b") := by decide
example : goRel (gs "/root") (gs "/") = .ok (gs "..") := by decide
example : goRel (gs "/root") (gs "/root") = .ok (gs ".") := by decide
example : goRel (gs "/root") (gs "/root/..data") = .ok (gs "..data") := by decide
example : goDir (gs "/a/b/c") = gs "/a/b" := by decide
example : goDir (gs "c") = gs "." := by decide
example : goTrimPre (gs "//a") (gs "/") = gs "/a" := by decide
example : goHasPre (gs "..data") (gs "..") = true := by decide

/-! ## Data model: permissions, users (store.go) -/

/-- Permission bits (store.go): `PermRead=1, PermList=2, PermWrite=4,
PermDelete=8`; the Go type is `uint8`. -/
def PermRead : Nat := 1
def PermList : Nat := 2
def PermWrite : Nat := 4
def PermDelete : Nat := 8

/-- The user record (store.go), restricted to the fields the handlers and
the authentication callbacks read.  `publicKey = none` models an invalid
`sql.NullString`. -/
structure User where
  username : GoStr
  rootPath : GoStr
  perms : Nat
  disabled : Bool
  publicKey : Option GoStr
  deriving DecidableEq, Repr

/-- `SftpHandler.hasPermission` (handlers.go): bitwise AND of the user's
mask with the requested permission, tested against zero. -/
def hasPermission (u : User) (perm : Nat) : Bool :=
  u.perms &&& perm != 0

/-! ## Filesystem and event model

The handlers act on the real OS filesystem.  We model the filesystem as an
association list from absolute paths to nodes, and record every mutating
OS call the handlers make (`os.MkdirAll`, `os.Remove`, `os.Rename`,
`os.RemoveAll`, `os.Chmod`, `os.Chtimes`, `os.Chown`, `os.Truncate`, and
`os.OpenFile` with `O_CREATE|O_TRUNC`) in an event trace. -/

/-- A filesystem node: a regular file with a byte size, a directory, or a
special (non-regular, non-directory) file. -/
inductive Node where
  | regular (size : Nat)
  | dir
  | special
  deriving DecidableEq, Repr

/-- The filesystem: an association list from absolute path to node. -/
abbrev Fs := List (GoStr × Node)

def fsGet (fs : Fs) (p : GoStr) : Option Node :=
  (fs.find? (fun kv => kv.1 == p)).map (·.2)

def fsSet (fs : Fs) (p : GoStr) (n : Node) : Fs :=
  (p, n) :: fs.filter (fun kv => !(kv.1 == p))

def fsDel (fs : Fs) (p : GoStr) : Fs :=
  fs.filter (fun kv => !(kv.1 == p))

/-- `os.RemoveAll`: drop the node and everything below it. -/
def fsDelTree (fs : Fs) (p : GoStr) : Fs :=
  fs.filter (fun kv => !(kv.1 == p || goHasPre kv.1 (p ++ ['/'])))

/-- The effect of a best-effort `os.MkdirAll p`: creates the directory if
nothing is there (parent creation is elided — only whether a mutation
happens matters to the claims); an existing node is left alone (if it is
not a directory the call errors, which the caller ignores). -/
def mkdirAllFs (fs : Fs) (p : GoStr) : Fs :=
  match fsGet fs p with
  | none => fsSet fs p .dir
  | some _ => fs

/-- One mutating OS call, with its arguments. -/
inductive Ev where
  | mkdirAll (p : GoStr)
  | remove (p : GoStr)
  | rename (src tgt : GoStr)
  | removeAll (p : GoStr)
  | chmod (p : GoStr) (mode : Nat)
  | chtimes (p : GoStr) (atime mtime : Nat)
  | chown (p : GoStr) (uid gid : Nat)
  | truncate (p : GoStr) (size : Nat)
  | openWrite (p : GoStr)
  deriving DecidableEq, Repr

/-- The Go error values surfaced by the handlers: `os.ErrPermission`,
`errors.New("access denied")`, `os.ErrInvalid`, `os.ErrNotExist` /
`ENOENT`, and other I/O failures. -/
inductive GoErr where
  | permission
  | accessDenied
  | invalid
  | notExist
  | ioErr
  deriving DecidableEq, Repr

/-! ## Path resolution (handlers.go, `resolvePath`) -/

/-- The request-normalization step of `SftpHandler.resolvePath`
(handlers.go): strip a leading separator (`TrimPrefix` with the separator,
then with `"/"`), clean `../` and `./` sequences in the requested path
itself, and treat root-like requests as the empty relative path.
`filepath.FromSlash` is the identity and `filepath.VolumeName` is empty on
unix, so those two steps vanish. -/
def cleanedReq (requested : GoStr) : GoStr :=
  let req := goTrimPre (goTrimPre requested ['/']) ['/']
  let req := goClean req
  if req = ['.'] ∨ req = ['/'] ∨ req = [] then [] else req

/-- The effective-root computation of `SftpHandler.resolvePath`
(handlers.go): an unset root is allocated under `baseRoot/<username>`, and
a root lying outside `baseRoot` (checked with `filepath.Rel` and a `..`
test) is rebased under it. -/
def effectiveRoot (cwd baseRoot : GoStr) (u : User) : GoStr :=
  let userRoot := goTrimSpace u.rootPath
  let userRoot := if userRoot = [] then goJoin baseRoot u.username else userRoot
  let baseAbs := goAbs cwd baseRoot
  let userRootAbs := goAbs cwd userRoot
  match goRel baseAbs userRootAbs with
  | .error _ => goJoin baseAbs u.username
  | .ok relToBase =>
    if goHasPre relToBase ['.', '.'] ∨ relToBase = ['.', '.'] then
      goJoin baseAbs u.username
    else userRootAbs

/-- The pure part of `SftpHandler.resolvePath`: the effective user root
and the joined absolute path of the request. -/
def resolveParts (cwd baseRoot : GoStr) (u : User) (requested : GoStr) :
    GoStr × GoStr :=
  let req := cleanedReq requested
  let userRootAbs := effectiveRoot cwd baseRoot u
  let joined := if req = [] then userRootAbs else goJoin userRootAbs req
  (userRootAbs, goAbs cwd joined)

/-- `SftpHandler.resolvePath` (handlers.go): returns the resolved absolute
path and the updated user (whose `RootPath` is set to the effective root),
threads the filesystem through the best-effort `os.MkdirAll` of the user
root, and records that call.  The containment check is the literal check
of the code: `strings.HasPrefix(rel, "..") ||
strings.HasPrefix(rel, "../")` on the `filepath.Rel` result. -/
def resolvePath (cwd baseRoot : GoStr) (u : User) (fs : Fs)
    (requested : GoStr) : Except GoErr (GoStr × User) × Fs × List Ev :=
  let parts := resolveParts cwd baseRoot u requested
  let userRootAbs := parts.1
  let abs := parts.2
  -- ensure the user root directory exists (best-effort)
  let fs2 := mkdirAllFs fs userRootAbs
  -- update in-memory user root so subsequent calls use the resolved path
  let u2 : User := { u with rootPath := userRootAbs }
  match goRel userRootAbs abs with
  | .error _ => (.error .accessDenied, fs2, [.mkdirAll userRootAbs])
  | .ok rel =>
    if goHasPre rel ['.', '.'] ∨ goHasPre rel ['.', '.', '/'] then
      (.error .accessDenied, fs2, [.mkdirAll userRootAbs])
    else (.ok (abs, u2), fs2, [.mkdirAll userRootAbs])

-- A user for concrete sanity checks.
def uAlice : User :=
  { username := gs "alice", rootPath := gs "/base/alice", perms := 15,
    disabled := false, publicKey := none }

example :
    (resolvePath (gs "/w") (gs "/base") uAlice [] (gs "/docs/a.txt")).1 =
      .ok (gs "/base/alice/docs/a.txt",
           { uAlice with rootPath := gs "/base/alice" }) := by decide
example :
    (resolvePath (gs "/w") (gs "/base") uAlice [] (gs "../../escape")).1 =
      .error .accessDenied := by decide
example :
    (resolvePath (gs "/w") (gs "/base") uAlice [] (gs "/")).1 =
      .ok (gs "/base/alice", { uAlice with rootPath := gs "/base/alice" }) := by
  decide
example :  -- a name that merely starts with ".." is also rejected
    (resolvePath (gs "/w") (gs "/base") uAlice [] (gs "..data")).1 =
      .error .accessDenied := by decide
example :  -- an empty configured root is allocated under baseRoot/<username>
    (resolvePath (gs "/w") (gs "/base")
        { uAlice with rootPath := [] } [] (gs "f")).1 =
      .ok (gs "/base/alice/f", { uAlice with rootPath := gs "/base/alice" }) := by
  decide
example :  -- a root outside baseRoot is rebased under baseRoot
    (resolvePath (gs "/w") (gs "/base")
        { uAlice with rootPath := gs "/elsewhere/alice" } [] (gs "f")).1 =
      .ok (gs "/base/alice/f", { uAlice with rootPath := gs "/base/alice" }) := by
  decide

/-! ## The request handlers (handlers.go) -/

/-- `SftpHandler.Fileread`: permission check, then resolution, then
`os.Open` for reading (not a mutation).  Returns the opened path as the
handle. -/
def Fileread (cwd baseRoot : GoStr) (u : User) (fs : Fs) (path : GoStr) :
    Except GoErr GoStr × Fs × List Ev :=
  if !hasPermission u PermRead then (.error .permission, fs, [])
  else
    match resolvePath cwd baseRoot u fs path with
    | (.error e, fs2, evs) => (.error e, fs2, evs)
    | (.ok (absPath, _), fs2, evs) =>
      match fsGet fs2 absPath with
      | none => (.error .notExist, fs2, evs)
      | some _ => (.ok absPath, fs2, evs)

/-- `SftpHandler.Filewrite`: permission check, resolution, `os.MkdirAll`
of the parent directory, then `os.OpenFile` with
`O_WRONLY|O_CREATE|O_TRUNC` (creates or truncates the file). -/
def Filewrite (cwd baseRoot : GoStr) (u : User) (fs : Fs) (path : GoStr) :
    Except GoErr GoStr × Fs × List Ev :=
  if !hasPermission u PermWrite then (.error .permission, fs, [])
  else
    match resolvePath cwd baseRoot u fs path with
    | (.error e, fs2, evs) => (.error e, fs2, evs)
    | (.ok (absPath, _), fs2, evs) =>
      let dir := goDir absPath
      match fsGet fs2 dir with
      | some (.regular _) => (.error .ioErr, fs2, evs ++ [.mkdirAll dir])
      | some .special => (.error .ioErr, fs2, evs ++ [.mkdirAll dir])
      | _ =>
        let fs3 := mkdirAllFs fs2 dir
        match fsGet fs3 absPath with
        | some .dir =>
          (.error .ioErr, fs3, evs ++ [.mkdirAll dir, .openWrite absPath])
        | _ =>
          (.ok absPath, fsSet fs3 absPath (.regular 0),
           evs ++ [.mkdirAll dir, .openWrite absPath])

/-- `SftpHandler.Filelist`: permission check, resolution, then `os.Open`
and `Readdir(-1)`; yields the names of the directory's direct children. -/
def Filelist (cwd baseRoot : GoStr) (u : User) (fs : Fs) (path : GoStr) :
    Except GoErr (List GoStr) × Fs × List Ev :=
  if !hasPermission u PermList then (.error .permission, fs, [])
  else
    match resolvePath cwd baseRoot u fs path with
    | (.error e, fs2, evs) => (.error e, fs2, evs)
    | (.ok (absPath, _), fs2, evs) =>
      match fsGet fs2 absPath with
      | none => (.error .notExist, fs2, evs)
      | some .dir =>
        let names := fs2.filterMap (fun kv =>
          let rest := kv.1.drop (absPath.length + 1)
          if goHasPre kv.1 (absPath ++ ['/']) ∧ ¬ '/' ∈ rest then some rest
          else none)
        (.ok names, fs2, evs)
      | some _ => (.error .ioErr, fs2, evs)

/-- The SFTP request methods handled by `Filecmd` (the string constants of
handlers.go). -/
def SSH_FXP_REMOVE : GoStr := gs "Remove"
def SSH_FXP_RENAME : GoStr := gs "Rename"
def SSH_FXP_MKDIR : GoStr := gs "Mkdir"
def SSH_FXP_RMDIR : GoStr := gs "Rmdir"
def SSH_FXP_SET_STAT : GoStr := gs "Setstat"

/-- The attribute bundle of a Setstat request (`sftp.FileStat`).  The wire
format cannot mark a field absent, so an absent field arrives as `0`. -/
structure FileAttrs where
  mode : Nat
  atime : Nat
  mtime : Nat
  uid : Nat
  gid : Nat
  size : Nat
  deriving DecidableEq, Repr

/-- An abstract operation request (`sftp.Request`): method, path, rename
target, and the optional Setstat attributes (`r.Attributes()`). -/
structure SftpRequest where
  method : GoStr
  filepath : GoStr
  target : GoStr
  attrs : Option FileAttrs
  deriving DecidableEq, Repr

/-- The Setstat attribute application of `Filecmd` (handlers.go): chmod if
`Mode != 0`, chtimes if a time is set (a missing component reuses the
other), chown if an id is set (`runtime.GOOS` is not `"windows"`), and
truncation only when `Size > 0` and the target is a regular file
(`Size == 0` is ambiguous and deliberately ignored).  Each OS call errors
when the path does not exist, which aborts the remainder. -/
def applySetstat (fs : Fs) (absPath : GoStr) (attrs : FileAttrs) :
    Except GoErr Fs × List Ev :=
  -- 1) permissions (Mode)
  let evA : List Ev :=
    if attrs.mode ≠ 0 then [.chmod absPath (attrs.mode &&& 511)] else []
  if attrs.mode ≠ 0 ∧ fsGet fs absPath = none then (.error .notExist, evA)
  else
    -- 2) times (Atime/Mtime); if only one is provided, reuse it for the other
    let at1 := if attrs.atime = 0 then attrs.mtime else attrs.atime
    let mt1 := if attrs.mtime = 0 then attrs.atime else attrs.mtime
    let evB := evA ++
      (if attrs.atime ≠ 0 ∨ attrs.mtime ≠ 0 then [Ev.chtimes absPath at1 mt1]
       else [])
    if (attrs.atime ≠ 0 ∨ attrs.mtime ≠ 0) ∧ fsGet fs absPath = none then
      (.error .notExist, evB)
    else
      -- 3) ownership (UID/GID), applied since the platform is not windows
      let evC := evB ++
        (if attrs.uid ≠ 0 ∨ attrs.gid ≠ 0 then [Ev.chown absPath attrs.uid attrs.gid]
         else [])
      if (attrs.uid ≠ 0 ∨ attrs.gid ≠ 0) ∧ fsGet fs absPath = none then
        (.error .notExist, evC)
      else
        -- 4) size: only when Size > 0, and only for a regular file
        if attrs.size > 0 then
          match fsGet fs absPath with
          | none => (.error .notExist, evC)
          | some (.regular _) =>
            (.ok (fsSet fs absPath (.regular attrs.size)),
             evC ++ [Ev.truncate absPath attrs.size])
          | some _ => (.ok fs, evC)
        else (.ok fs, evC)

/-- `SftpHandler.Filecmd` (handlers.go): resolves the request path first,
then dispatches on the method, checking the per-method permission before
the filesystem action.  The rename target is resolved after the write
permission check; a target resolution failure aborts the rename. -/
def Filecmd (cwd baseRoot : GoStr) (u : User) (fs : Fs) (r : SftpRequest) :
    Except GoErr Unit × Fs × List Ev :=
  match resolvePath cwd baseRoot u fs r.filepath with
  | (.error e, fs2, evs) => (.error e, fs2, evs)
  | (.ok (absPath, u2), fs2, evs) =>
    if r.method = SSH_FXP_REMOVE then
      if !hasPermission u2 PermDelete then (.error .permission, fs2, evs)
      else
        match fsGet fs2 absPath with
        | none => (.error .notExist, fs2, evs ++ [.remove absPath])
        | some _ => (.ok (), fsDel fs2 absPath, evs ++ [.remove absPath])
    else if r.method = SSH_FXP_RENAME then
      if !hasPermission u2 PermWrite then (.error .permission, fs2, evs)
      else
        match resolvePath cwd baseRoot u2 fs2 r.target with
        | (.error e, fs3, evs2) => (.error e, fs3, evs ++ evs2)
        | (.ok (newPath, _), fs3, evs2) =>
          match fsGet fs3 absPath with
          | none =>
            (.error .notExist, fs3, evs ++ evs2 ++ [.rename absPath newPath])
          | some n =>
            (.ok (), fsSet (fsDel fs3 absPath) newPath n,
             evs ++ evs2 ++ [.rename absPath newPath])
    else if r.method = SSH_FXP_MKDIR then
      if !hasPermission u2 PermWrite then (.error .permission, fs2, evs)
      else
        match fsGet fs2 absPath with
        | some .dir => (.ok (), fs2, evs ++ [.mkdirAll absPath])
        | some _ => (.error .ioErr, fs2, evs ++ [.mkdirAll absPath])
        | none => (.ok (), fsSet fs2 absPath .dir, evs ++ [.mkdirAll absPath])
    else if r.method = SSH_FXP_RMDIR then
      if !hasPermission u2 PermDelete then (.error .permission, fs2, evs)
      else (.ok (), fsDelTree fs2 absPath, evs ++ [.removeAll absPath])
    else if r.method = SSH_FXP_SET_STAT then
      if !hasPermission u2 PermWrite then (.error .permission, fs2, evs)
      else
        match r.attrs with
        | none => (.ok (), fs2, evs)
        | some attrs =>
          match applySetstat fs2 absPath attrs with
          | (.error e, evs2) => (.error e, fs2, evs ++ evs2)
          | (.ok fs3, evs2) => (.ok (), fs3, evs ++ evs2)
    else (.error .invalid, fs2, evs)

/-! ## Directory-listing pager (handlers.go, `fileInfoLister.ListAt`) -/

/-- `fileInfoLister.ListAt`: copies entries from `offset` into a buffer of
length `bufLen`; returns the copied entries and whether `io.EOF` is
signaled.  An empty listing at offset 0 reports no entries and no EOF (a
workaround for clients that treat immediate EOF as an error). -/
def listAt {α : Type} (fis : List α) (bufLen offset : Nat) :
    List α × Bool :=
  if fis.length = 0 ∧ offset = 0 then ([], false)
  else if offset ≥ fis.length then ([], true)
  else
    let chunk := (fis.drop offset).take bufLen
    (chunk, chunk.length < bufLen)

/-- Repeatedly call `listAt`, starting at `offset` and advancing by the
number of entries returned each time, until EOF or the fuel runs out;
collects the entries and whether EOF was reached. -/
def drive {α : Type} (fis : List α) (bufLen : Nat) :
    Nat → Nat → List α × Bool
  | _, 0 => ([], false)
  | offset, fuel + 1 =>
    let res := listAt fis bufLen offset
    if res.2 then (res.1, true)
    else
      let rest := drive fis bufLen (offset + res.1.length) fuel
      (res.1 ++ rest.1, rest.2)

example : listAt ([] : List Nat) 8 0 = ([], false) := by decide
example : listAt ([] : List Nat) 8 1 = ([], true) := by decide
example : listAt [10, 20, 30] 2 0 = ([10, 20], false) := by decide
example : listAt [10, 20, 30] 2 2 = ([30], true) := by decide
example : drive [10, 20, 30] 2 0 4 = ([10, 20, 30], true) := by decide

/-! ## Public-key authentication (main.go, `PublicKeyCallback`) -/

/-- The authentication failures of the public-key callback in main.go. -/
inductive AuthErr where
  | userNotFound
  | userDisabled
  | noPublicKey
  | invalidPublicKey
  | keyMismatch
  deriving DecidableEq, Repr

/-- `PublicKeyCallback` (main.go).  `fetch` models
`store.FetchUserByUsername` (`none` = lookup error), `parse` models
`ssh.ParseAuthorizedKey` on the stored text, and `marshal` models
`ssh.PublicKey.Marshal`, the canonical wire encoding; the comparison is
`bytes.Equal` of the two marshaled keys.  On success the callback binds
the username to the session. -/
def publicKeyCallback {K : Type} (fetch : GoStr → Option User)
    (parse : GoStr → Option K) (marshal : K → List Nat)
    (username : GoStr) (key : K) : Except AuthErr GoStr :=
  match fetch username with
  | none => .error .userNotFound
  | some user =>
    if user.disabled then .error .userDisabled
    else
      match user.publicKey with
      | none => .error .noPublicKey
      | some stored =>
        match parse stored with
        | none => .error .invalidPublicKey
        | some authorizedKey =>
          if marshal key = marshal authorizedKey then .ok user.username
          else .error .keyMismatch

/-! ## Lemmas about the string primitives -/

theorem goHasPre_iff (s pre : GoStr) :
    goHasPre s pre = true ↔ ∃ t, pre ++ t = s := by
  induction pre generalizing s with
  | nil => simp [goHasPre]
  | cons d pre ih =>
    cases s with
    | nil => simp [goHasPre]
    | cons c s =>
      simp only [goHasPre, Bool.and_eq_true, decide_eq_true_eq, ih]
      constructor
      · rintro ⟨hcd, t, ht⟩
        exact ⟨t, by rw [List.cons_append, ht, hcd]⟩
      · rintro ⟨t, ht⟩
        rw [List.cons_append] at ht
        injection ht with h1 h2
        exact ⟨h1.symm, t, h2⟩

theorem goHasPre_mono (x y p : GoStr) (h : goHasPre x p = true) :
    goHasPre (x ++ y) p = true := by
  rcases (goHasPre_iff x p).1 h with ⟨t, ht⟩
  exact (goHasPre_iff (x ++ y) p).2 ⟨t ++ y, by rw [← ht, List.append_assoc]⟩

theorem splitOnSlash_ne_nil (s : GoStr) : splitOnSlash s ≠ [] := by
  cases s with
  | nil => simp [splitOnSlash]
  | cons c rest =>
    simp only [splitOnSlash]
    split
    · simp
    · split <;> simp

theorem splitOnSlash_no_sep (x : GoStr) (h : '/' ∉ x) :
    splitOnSlash x = [x] := by
  induction x with
  | nil => rfl
  | cons c rest ih =>
    have hc : ¬ c = '/' := by
      intro hc; exact h (by simp [hc])
    have hr : '/' ∉ rest := fun hm => h (List.mem_cons_of_mem _ hm)
    simp only [splitOnSlash]
    rw [if_neg hc, ih hr]

theorem splitOnSlash_append_sep (x t : GoStr) (h : '/' ∉ x) :
    splitOnSlash (x ++ '/' :: t) = x :: splitOnSlash t := by
  induction x with
  | nil => simp [splitOnSlash]
  | cons c rest ih =>
    have hc : ¬ c = '/' := by
      intro hc; exact h (by simp [hc])
    have hr : '/' ∉ rest := fun hm => h (List.mem_cons_of_mem _ hm)
    have ihr : splitOnSlash (rest.append ('/' :: t)) = rest :: splitOnSlash t :=
      ih hr
    simp only [List.cons_append, splitOnSlash]
    rw [if_neg hc]
    rw [ihr]

theorem splitOnSlash_joinSlash (l : List GoStr) (hne : l ≠ [])
    (h : ∀ x ∈ l, '/' ∉ x) : splitOnSlash (joinSlash l) = l := by
  induction l with
  | nil => cases hne rfl
  | cons x rest ih =>
    cases rest with
    | nil => exact splitOnSlash_no_sep x (h x (by simp))
    | cons y rest2 =>
      rw [show joinSlash (x :: y :: rest2) = x ++ '/' :: joinSlash (y :: rest2)
            from rfl,
          splitOnSlash_append_sep x _ (h x (by simp)),
          ih (by simp) (fun z hz => h z (List.mem_cons_of_mem _ hz))]

theorem splitOnSlash_mem_no_sep (s : GoStr) :
    ∀ seg ∈ splitOnSlash s, '/' ∉ seg := by
  induction s with
  | nil =>
    intro seg hs
    simp only [splitOnSlash, List.mem_singleton] at hs
    subst hs; simp
  | cons c rest ih =>
    intro seg hs
    simp only [splitOnSlash] at hs
    by_cases hc : c = '/'
    · rw [if_pos hc] at hs
      rcases List.mem_cons.mp hs with rfl | h2
      · simp
      · exact ih seg h2
    · rw [if_neg hc] at hs
      cases hsp : splitOnSlash rest with
      | nil => exact absurd hsp (splitOnSlash_ne_nil rest)
      | cons seg0 segs0 =>
        rw [hsp] at hs
        rcases List.mem_cons.mp hs with rfl | h2
        · intro hm
          rcases List.mem_cons.mp hm with h3 | h3
          · exact hc h3.symm
          · exact ih seg0 (by rw [hsp]; simp) h3
        · exact ih seg (by rw [hsp]; exact List.mem_cons_of_mem _ h2)

/-! ## Canonical absolute paths

A path produced by `goClean` on a rooted input is `renderR l` for a list
`l` of clean segments (non-empty, not `.`, not `..`, no separator); such
paths are the fixed points of `goClean` and behave well under `goRel`. -/

/-- A clean path element. -/
def CleanSeg (x : GoStr) : Prop :=
  x ≠ [] ∧ x ≠ ['.'] ∧ x ≠ ['.', '.'] ∧ '/' ∉ x

/-- A canonical absolute path: the rendering of a list of clean elements. -/
def CanonA (s : GoStr) : Prop :=
  ∃ l, s = renderR l ∧ ∀ x ∈ l, CleanSeg x

theorem isAbsG_renderR (l : List GoStr) : isAbsG (renderR l) = true := by
  simp [renderR, isAbsG]

theorem canonA_isAbs (s : GoStr) (h : CanonA s) : isAbsG s = true := by
  rcases h with ⟨l, rfl, _⟩
  exact isAbsG_renderR l

theorem cleanStackR_cleanSegs (pieces : List GoStr) :
    ∀ stack, (∀ x ∈ stack, CleanSeg x) → (∀ x ∈ pieces, '/' ∉ x) →
      ∀ x ∈ cleanStackR stack pieces, CleanSeg x := by
  induction pieces with
  | nil =>
    intro stack hs _ x hx
    simp only [cleanStackR, List.mem_reverse] at hx
    exact hs x hx
  | cons s rest ih =>
    intro stack hs hp x hx
    have hrest : ∀ z ∈ rest, '/' ∉ z :=
      fun z hz => hp z (List.mem_cons_of_mem _ hz)
    simp only [cleanStackR] at hx
    by_cases h1 : s = [] ∨ s = ['.']
    · rw [if_pos h1] at hx
      exact ih stack hs hrest x hx
    · rw [if_neg h1] at hx
      by_cases h2 : s = ['.', '.']
      · rw [if_pos h2] at hx
        refine ih stack.tail (fun z hz => hs z ?_) hrest x hx
        exact List.mem_of_mem_tail hz
      · rw [if_neg h2] at hx
        refine ih (s :: stack) (fun z hz => ?_) hrest x hx
        rcases List.mem_cons.mp hz with hz1 | hz2
        · subst hz1
          push_neg at h1
          exact ⟨h1.1, h1.2, h2, hp _ (List.mem_cons_self _ _)⟩
        · exact hs z hz2

theorem cleanStackR_clean (l : List GoStr) :
    ∀ stack, (∀ x ∈ l, CleanSeg x) →
      cleanStackR stack l = stack.reverse ++ l := by
  induction l with
  | nil => intro stack _; simp [cleanStackR]
  | cons s rest ih =>
    intro stack h
    have hsc : CleanSeg s := h s (by simp)
    simp only [cleanStackR]
    rw [if_neg (by rintro (h1 | h1) <;> [exact hsc.1 h1; exact hsc.2.1 h1]),
        if_neg hsc.2.2.1,
        ih (s :: stack) (fun z hz => h z (List.mem_cons_of_mem _ hz))]
    simp

theorem segsOf_renderR (l : List GoStr) (h : ∀ x ∈ l, x ≠ [] ∧ '/' ∉ x) :
    segsOf (renderR l) = l := by
  cases l with
  | nil => decide
  | cons x rest =>
    have hall : ∀ z ∈ x :: rest, '/' ∉ z := fun z hz => (h z hz).2
    have hsplit : splitOnSlash (renderR (x :: rest)) =
        [] :: x :: rest := by
      show splitOnSlash ('/' :: joinSlash (x :: rest)) = [] :: x :: rest
      simp only [splitOnSlash]
      rw [if_pos trivial, splitOnSlash_joinSlash _ (by simp) hall]
    unfold segsOf
    rw [hsplit]
    have hkeep : ∀ z ∈ x :: rest, (!z.isEmpty) = true := by
      intro z hz
      rcases h z hz with ⟨hz1, _⟩
      cases z with
      | nil => exact absurd rfl hz1
      | cons a b => rfl
    rw [List.filter_cons_of_neg (by decide)]
    exact List.filter_eq_self.mpr hkeep

theorem goClean_abs (p : GoStr) (h : isAbsG p = true) :
    goClean p = renderR (cleanStackR [] (splitOnSlash p)) := by
  have hp : p ≠ [] := by
    cases p with
    | nil => simp [isAbsG] at h
    | cons c s => simp
  unfold goClean
  rw [if_neg hp, if_pos h]

theorem canonA_goClean (p : GoStr) (h : isAbsG p = true) :
    CanonA (goClean p) := by
  rw [goClean_abs p h]
  exact ⟨_, rfl,
    cleanStackR_cleanSegs (splitOnSlash p) [] (by simp)
      (splitOnSlash_mem_no_sep p)⟩

theorem goClean_canon (s : GoStr) (h : CanonA s) : goClean s = s := by
  rcases h with ⟨l, rfl, hl⟩
  rw [goClean_abs _ (isAbsG_renderR l)]
  cases l with
  | nil => decide
  | cons x rest =>
    have hall : ∀ z ∈ x :: rest, '/' ∉ z := fun z hz => (hl z hz).2.2.2
    have hsplit : splitOnSlash (renderR (x :: rest)) = [] :: x :: rest := by
      show splitOnSlash ('/' :: joinSlash (x :: rest)) = [] :: x :: rest
      simp only [splitOnSlash]
      rw [if_pos trivial, splitOnSlash_joinSlash _ (by simp) hall]
    rw [hsplit]
    rw [show cleanStackR [] ([] :: x :: rest) = cleanStackR [] (x :: rest) by
          simp [cleanStackR]]
    rw [cleanStackR_clean _ [] hl]
    rfl

theorem canonA_goJoin (a b : GoStr) (h : isAbsG a = true) :
    CanonA (goJoin a b) := by
  have ha : a ≠ [] := by
    cases a with
    | nil => simp [isAbsG] at h
    | cons c s => simp
  unfold goJoin
  rw [if_neg (by rintro ⟨h1, _⟩; exact ha h1), if_neg ha]
  by_cases hb : b = []
  · rw [if_pos hb]
    exact canonA_goClean a h
  · rw [if_neg hb]
    apply canonA_goClean
    cases a with
    | nil => cases ha rfl
    | cons c s =>
      simp only [isAbsG, decide_eq_true_eq] at h
      simp [isAbsG, h]

theorem canonA_goAbs (cwd p : GoStr) (h : isAbsG cwd = true) :
    CanonA (goAbs cwd p) := by
  unfold goAbs
  by_cases hp : isAbsG p = true
  · rw [if_pos hp]
    exact canonA_goClean p hp
  · rw [if_neg hp]
    exact canonA_goJoin cwd p h

/-! ## Lemmas about `relSegs` and `goRel` -/

theorem relSegs_eq_nil (bs : List GoStr) :
    ∀ ts t, relSegs bs ts = ([], t) ↔ bs ++ t = ts := by
  induction bs with
  | nil =>
    intro ts t
    cases ts <;> simp [relSegs, eq_comm]
  | cons b bs ih =>
    intro ts t
    cases ts with
    | nil =>
      simp [relSegs]
    | cons t0 ts =>
      simp only [relSegs]
      by_cases hbt : b = t0
      · subst hbt
        rw [if_pos rfl, ih ts t]
        constructor
        · intro h; rw [List.cons_append, h]
        · intro h; injection h
      · rw [if_neg hbt]
        constructor
        · intro h; injection h with h1 _; cases h1
        · intro h
          rw [List.cons_append] at h
          injection h with h1 _
          exact absurd h1 hbt

theorem relSegs_fst_nil (bs ts : List GoStr) :
    (relSegs bs ts).1 = [] ↔ ∃ t, bs ++ t = ts := by
  constructor
  · intro h
    refine ⟨(relSegs bs ts).2, (relSegs_eq_nil bs ts _).1 ?_⟩
    cases hr : relSegs bs ts with
    | mk a c => rw [hr] at h; simp only at h; rw [h]
  · rintro ⟨t, ht⟩
    rw [(relSegs_eq_nil bs ts t).2 ht]

theorem relSegs_fst_sub (bs : List GoStr) :
    ∀ ts, ∀ x ∈ (relSegs bs ts).1, x ∈ bs := by
  induction bs with
  | nil => intro ts x hx; cases ts <;> simp [relSegs] at hx
  | cons b bs ih =>
    intro ts x hx
    cases ts with
    | nil => simpa [relSegs] using hx
    | cons t0 ts =>
      simp only [relSegs] at hx
      by_cases hbt : b = t0
      · rw [if_pos hbt] at hx
        exact List.mem_cons_of_mem _ (ih ts x hx)
      · rw [if_neg hbt] at hx
        simpa using hx

theorem relSegs_snd_sub (bs : List GoStr) :
    ∀ ts, ∀ x ∈ (relSegs bs ts).2, x ∈ ts := by
  induction bs with
  | nil =>
    intro ts x hx
    cases ts with
    | nil => simp [relSegs] at hx
    | cons t ts2 =>
      simp [relSegs] at hx
      simp [hx]
  | cons b bs ih =>
    intro ts x hx
    cases ts with
    | nil => simp [relSegs] at hx
    | cons t0 ts =>
      simp only [relSegs] at hx
      by_cases hbt : b = t0
      · rw [if_pos hbt] at hx
        exact List.mem_cons_of_mem _ (ih ts x hx)
      · rw [if_neg hbt] at hx
        simpa using hx

/-- Two canonical absolute paths are equal iff their segments are. -/
theorem canonA_eq_iff_segs (b t : GoStr) (hb : CanonA b) (ht : CanonA t) :
    t = b ↔ segsOf t = segsOf b := by
  constructor
  · intro h; rw [h]
  · intro h
    rcases hb with ⟨lb, rfl, hlb⟩
    rcases ht with ⟨lt, rfl, hlt⟩
    rw [segsOf_renderR lb (fun x hx => ⟨(hlb x hx).1, (hlb x hx).2.2.2⟩),
        segsOf_renderR lt (fun x hx => ⟨(hlt x hx).1, (hlt x hx).2.2.2⟩)] at h
    rw [h]

/-- On canonical absolute inputs, `goRel` never fails, and its result is
determined by the segment lists. -/
theorem goRel_canon (b t : GoStr) (hb : CanonA b) (ht : CanonA t) :
    goRel b t = .ok (if segsOf t = segsOf b then ['.'] else
      joinSlash (List.replicate (relSegs (segsOf b) (segsOf t)).1.length
        ['.', '.'] ++ (relSegs (segsOf b) (segsOf t)).2)) := by
  have hcb := goClean_canon b hb
  have hct := goClean_canon t ht
  unfold goRel
  rw [hcb, hct]
  by_cases heq : t = b
  · rw [if_pos heq, if_pos ((canonA_eq_iff_segs b t hb ht).1 heq)]
  · rw [if_neg heq, if_neg (fun h => heq ((canonA_eq_iff_segs b t hb ht).2 h))]
    have hbdot : ¬ b = ['.'] := by
      rcases hb with ⟨lb, rfl, _⟩
      simp [renderR]
    rw [if_neg hbdot]
    have habs : (isAbsG b = isAbsG t) = True := by
      rw [canonA_isAbs b hb, canonA_isAbs t ht]
      simp
    rw [if_neg (by rw [habs]; simp)]
    have hhead : ¬ (relSegs (segsOf b) (segsOf t)).1.head? = some ['.', '.'] := by
      intro hh
      cases hfst : (relSegs (segsOf b) (segsOf t)).1 with
      | nil => rw [hfst] at hh; simp at hh
      | cons a rest =>
        rw [hfst] at hh
        simp only [List.head?] at hh
        injection hh with hh1
        subst hh1
        have hmem : (['.', '.'] : GoStr) ∈ segsOf b := by
          apply relSegs_fst_sub
          rw [hfst]; simp
        rcases hb with ⟨lb, rfl, hlb⟩
        rw [segsOf_renderR lb
            (fun x hx => ⟨(hlb x hx).1, (hlb x hx).2.2.2⟩)] at hmem
        exact (hlb _ hmem).2.2.1 rfl
    rw [if_neg hhead]

theorem canonA_segs_clean (s : GoStr) (h : CanonA s) :
    ∀ x ∈ segsOf s, CleanSeg x := by
  rcases h with ⟨l, rfl, hl⟩
  rw [segsOf_renderR l (fun x hx => ⟨(hl x hx).1, (hl x hx).2.2.2⟩)]
  exact hl

theorem goHasPre_dots_append (x0 w : GoStr) (h : x0 ≠ []) :
    goHasPre (x0 ++ '/' :: w) ['.', '.'] = goHasPre x0 ['.', '.'] := by
  cases x0 with
  | nil => cases h rfl
  | cons c0 x1 =>
    cases x1 with
    | nil => simp [goHasPre]
    | cons c1 x2 => simp [goHasPre]

theorem joinSlash_dots (l : List GoStr) (h : ∀ x ∈ l, x ≠ []) :
    goHasPre (joinSlash l) ['.', '.'] = true ↔
      ∃ x0 rest, l = x0 :: rest ∧ goHasPre x0 ['.', '.'] = true := by
  cases l with
  | nil => simp [joinSlash, goHasPre]
  | cons x0 rest =>
    have hx0 : x0 ≠ [] := h x0 (by simp)
    have hl : goHasPre (joinSlash (x0 :: rest)) ['.', '.'] =
        goHasPre x0 ['.', '.'] := by
      cases rest with
      | nil => rfl
      | cons y r2 =>
        rw [show joinSlash (x0 :: y :: r2) = x0 ++ '/' :: joinSlash (y :: r2)
              from rfl]
        exact goHasPre_dots_append x0 _ hx0
    rw [hl]
    constructor
    · intro hx
      exact ⟨x0, rest, rfl, hx⟩
    · rintro ⟨x0', rest', heq, hx⟩
      injection heq with h1 h2
      subst h1
      exact hx

theorem goHasPre_dotslash (s : GoStr) (h : goHasPre s ['.', '.', '/'] = true) :
    goHasPre s ['.', '.'] = true := by
  rcases (goHasPre_iff s _).1 h with ⟨t, ht⟩
  exact (goHasPre_iff s _).2 ⟨'/' :: t, ht⟩

theorem relSegs_self (l : List GoStr) : relSegs l l = ([], []) :=
  (relSegs_eq_nil l l []).2 (by simp)

/-! ## The sandbox check of `resolvePath`, at the segment level -/

/-- The sandbox rejection condition of `resolvePath`, expressed on the
segment lists of the effective root and the resolved absolute path: the
root's segments fail to be a prefix of the path's, or the first segment
below the root starts with the two characters `..`. -/
def escapes (bl tl : List GoStr) : Bool :=
  !(relSegs bl tl).1.isEmpty ||
    (match (relSegs bl tl).2 with
     | [] => false
     | x0 :: _ => goHasPre x0 ['.', '.'])

theorem canonA_effectiveRoot (cwd baseRoot : GoStr) (u : User)
    (h : isAbsG cwd = true) : CanonA (effectiveRoot cwd baseRoot u) := by
  simp only [effectiveRoot]
  split
  · exact canonA_goJoin _ _ (canonA_isAbs _ (canonA_goAbs cwd baseRoot h))
  · split
    · exact canonA_goJoin _ _ (canonA_isAbs _ (canonA_goAbs cwd baseRoot h))
    · exact canonA_goAbs cwd _ h

theorem canonA_resolveParts (cwd baseRoot : GoStr) (u : User) (req : GoStr)
    (h : isAbsG cwd = true) :
    CanonA (resolveParts cwd baseRoot u req).1 ∧
      CanonA (resolveParts cwd baseRoot u req).2 := by
  constructor
  · simpa [resolveParts] using canonA_effectiveRoot cwd baseRoot u h
  · simp only [resolveParts]
    exact canonA_goAbs cwd _ h

/-- The rejection condition of `resolvePath`, rephrased: the `..`-check on
the rendered `filepath.Rel` string holds exactly when `escapes` holds of
the segment lists. -/
theorem escapes_iff_dots (bl tl : List GoStr)
    (htl : ∀ x ∈ tl, CleanSeg x) :
    escapes bl tl = true ↔
      goHasPre (joinSlash (List.replicate (relSegs bl tl).1.length
        ['.', '.'] ++ (relSegs bl tl).2)) ['.', '.'] = true := by
  have hne : ∀ x ∈ List.replicate (relSegs bl tl).1.length
      (['.', '.'] : GoStr) ++ (relSegs bl tl).2, x ≠ [] := by
    intro x hx
    rcases List.mem_append.mp hx with h1 | h1
    · rw [List.eq_of_mem_replicate h1]
      simp
    · exact (htl x (relSegs_snd_sub bl tl x h1)).1
  rw [joinSlash_dots _ hne]
  unfold escapes
  cases hfst : (relSegs bl tl).1 with
  | cons a r =>
    simp only [List.isEmpty_cons, Bool.not_false, Bool.true_or, true_iff,
      List.length_cons]
    exact ⟨['.', '.'],
      List.replicate r.length ['.', '.'] ++ (relSegs bl tl).2,
      by rw [List.replicate_succ]; rfl, by simp [goHasPre]⟩
  | nil =>
    simp only [List.isEmpty_nil, Bool.not_true, Bool.false_or,
      List.length_nil, List.replicate_zero, List.nil_append]
    cases hsnd : (relSegs bl tl).2 with
    | nil =>
      simp
    | cons x0 r =>
      constructor
      · intro hx
        exact ⟨x0, r, rfl, hx⟩
      · rintro ⟨x0', r', heq2, hx⟩
        injection heq2 with e1 e2
        subst e1
        exact hx

/-- Master lemma: given an absolute working directory, `resolvePath`
returns the resolved path and updated user exactly when `escapes` does
not hold of the segment lists of `resolveParts`, and an access-denied
error otherwise. -/
theorem resolvePath_eq (cwd baseRoot : GoStr) (u : User) (fs : Fs)
    (req : GoStr) (h : isAbsG cwd = true) :
    (resolvePath cwd baseRoot u fs req).1 =
      (if escapes (segsOf (resolveParts cwd baseRoot u req).1)
            (segsOf (resolveParts cwd baseRoot u req).2) = true
       then .error .accessDenied
       else .ok ((resolveParts cwd baseRoot u req).2,
                 { u with rootPath := (resolveParts cwd baseRoot u req).1 })) := by
  obtain ⟨hroot, habs⟩ := canonA_resolveParts cwd baseRoot u req h
  have hrel := goRel_canon _ _ hroot habs
  by_cases heq : segsOf (resolveParts cwd baseRoot u req).2 =
      segsOf (resolveParts cwd baseRoot u req).1
  · rw [if_pos heq] at hrel
    have hesc : escapes (segsOf (resolveParts cwd baseRoot u req).1)
        (segsOf (resolveParts cwd baseRoot u req).2) = false := by
      rw [heq]
      simp [escapes, relSegs_self]
    simp only [resolvePath, hrel, hesc]
    rw [if_neg (by decide :
      ¬(goHasPre ['.'] ['.', '.'] = true ∨
        goHasPre ['.'] ['.', '.', '/'] = true))]
    simp
  · rw [if_neg heq] at hrel
    have hiff := escapes_iff_dots (segsOf (resolveParts cwd baseRoot u req).1)
      (segsOf (resolveParts cwd baseRoot u req).2) (canonA_segs_clean _ habs)
    by_cases hesc : escapes (segsOf (resolveParts cwd baseRoot u req).1)
        (segsOf (resolveParts cwd baseRoot u req).2) = true
    · have hcond := hiff.mp hesc
      simp only [resolvePath, hrel, hesc]
      rw [if_pos (Or.inl hcond)]
      simp
    · rw [Bool.not_eq_true] at hesc
      have hcond : ¬(goHasPre (joinSlash (List.replicate
          (relSegs (segsOf (resolveParts cwd baseRoot u req).1)
            (segsOf (resolveParts cwd baseRoot u req).2)).1.length
          ['.', '.'] ++ (relSegs (segsOf (resolveParts cwd baseRoot u req).1)
            (segsOf (resolveParts cwd baseRoot u req).2)).2)) ['.', '.'] = true ∨
          goHasPre (joinSlash (List.replicate
          (relSegs (segsOf (resolveParts cwd baseRoot u req).1)
            (segsOf (resolveParts cwd baseRoot u req).2)).1.length
          ['.', '.'] ++ (relSegs (segsOf (resolveParts cwd baseRoot u req).1)
            (segsOf (resolveParts cwd baseRoot u req).2)).2)) ['.', '.', '/'] = true) := by
        rintro (h1 | h1)
        · rw [← hiff] at h1
          rw [h1] at hesc
          cases hesc
        · have h2 := goHasPre_dotslash _ h1
          rw [← hiff] at h2
          rw [h2] at hesc
          cases hesc
      simp only [resolvePath, hrel, hesc]
      rw [if_neg hcond]
      simp

/-- Helper: reading `escapes bl tl = false` componentwise. -/
theorem escapes_false_iff (bl tl : List GoStr) :
    escapes bl tl = false ↔
      (relSegs bl tl).1 = [] ∧
      (match (relSegs bl tl).2 with
       | [] => false
       | x0 :: _ => goHasPre x0 ['.', '.']) = false := by
  unfold escapes
  rw [Bool.or_eq_false_iff]
  constructor
  · rintro ⟨h1, h2⟩
    refine ⟨?_, h2⟩
    cases hf : (relSegs bl tl).1 with
    | nil => rfl
    | cons a r => rw [hf] at h1; simp at h1
  · rintro ⟨h1, h2⟩
    refine ⟨?_, h2⟩
    rw [h1]
    simp

/-- C1: for every requested path string, `resolvePath` either returns an
absolute path whose segments extend the segments of the session's
effective root (i.e. a path in the root subtree, the root itself
included), or fails with the access-denied error — never any other error,
and never a path outside the root. -/
theorem c1_resolve_contained (cwd baseRoot : GoStr) (u : User) (fs : Fs)
    (req : GoStr) (h : isAbsG cwd = true) :
    (∀ absPath u2,
        (resolvePath cwd baseRoot u fs req).1 = .ok (absPath, u2) →
          isAbsG absPath = true ∧
          ∃ t, segsOf u2.rootPath ++ t = segsOf absPath) ∧
    (∀ e, (resolvePath cwd baseRoot u fs req).1 = .error e →
        e = GoErr.accessDenied) := by
  have hmaster := resolvePath_eq cwd baseRoot u fs req h
  obtain ⟨hroot, habs⟩ := canonA_resolveParts cwd baseRoot u req h
  constructor
  · intro absPath u2 hok
    rw [hmaster] at hok
    by_cases hesc : escapes (segsOf (resolveParts cwd baseRoot u req).1)
        (segsOf (resolveParts cwd baseRoot u req).2) = true
    · rw [if_pos hesc] at hok
      cases hok
    · rw [if_neg hesc] at hok
      injection hok with hok2
      injection hok2 with ha hu
      subst ha
      subst hu
      refine ⟨canonA_isAbs _ habs, ?_⟩
      rw [Bool.not_eq_true] at hesc
      obtain ⟨hfst, _⟩ := (escapes_false_iff _ _).1 hesc
      exact (relSegs_fst_nil _ _).1 hfst
  · intro e herr
    rw [hmaster] at herr
    by_cases hesc : escapes (segsOf (resolveParts cwd baseRoot u req).1)
        (segsOf (resolveParts cwd baseRoot u req).2) = true
    · rw [if_pos hesc] at herr
      injection herr with he
      exact he.symm
    · rw [if_neg hesc] at herr
      cases herr

/-- C1 witness: a concrete in-sandbox request resolves, and the result is
absolute and inside the effective root. -/
theorem c1_witness :
    isAbsG (gs "/w") = true ∧
    (resolvePath (gs "/w") (gs "/base") uAlice [] (gs "docs/f.txt")).1 =
      .ok (gs "/base/alice/docs/f.txt",
           ({ uAlice with rootPath := gs "/base/alice" } : User)) ∧
    (isAbsG (gs "/base/alice/docs/f.txt") = true ∧
      ∃ t, segsOf (gs "/base/alice") ++ t =
        segsOf (gs "/base/alice/docs/f.txt")) :=
  ⟨by decide, by decide,
   (c1_resolve_contained (gs "/w") (gs "/base") uAlice [] (gs "docs/f.txt")
      (by decide)).1 (gs "/base/alice/docs/f.txt")
      ({ uAlice with rootPath := gs "/base/alice" }) (by decide)⟩

/-- C5 counterexample: the request `"..data"` resolves to a path whose
form relative to the root is the single segment `"..data"` — the parent
marker only as a character prefix of a longer name, not as a whole
segment — yet `resolvePath` rejects it with access denied, because the
code's check is `strings.HasPrefix(rel, "..")` on the raw string. -/
theorem c5_counterexample :
    (resolvePath (gs "/w") (gs "/base") uAlice [] (gs "..data")).1 =
      .error .accessDenied ∧
    segsOf (gs "/base/alice/..data") =
      segsOf (gs "/base/alice") ++ [gs "..data"] ∧
    gs "..data" ≠ gs ".." := by decide

/-- C5 (amended): `resolvePath` rejects a request exactly when either the
resolved path's segments do not extend the effective root's segments, or
the first segment below the root begins with the two characters `..` —
whether as the whole parent-directory marker or merely as a prefix of a
longer name such as `..data`. -/
theorem c5_escape_check (cwd baseRoot : GoStr) (u : User) (fs : Fs)
    (req : GoStr) (h : isAbsG cwd = true) :
    ((resolvePath cwd baseRoot u fs req).1 = .error .accessDenied ↔
      (¬ ∃ t, segsOf (resolveParts cwd baseRoot u req).1 ++ t =
          segsOf (resolveParts cwd baseRoot u req).2) ∨
      (∃ x0 t, segsOf (resolveParts cwd baseRoot u req).1 ++ (x0 :: t) =
          segsOf (resolveParts cwd baseRoot u req).2 ∧
          goHasPre x0 ['.', '.'] = true)) := by
  rw [resolvePath_eq cwd baseRoot u fs req h]
  by_cases hesc : escapes (segsOf (resolveParts cwd baseRoot u req).1)
      (segsOf (resolveParts cwd baseRoot u req).2) = true
  · rw [if_pos hesc]
    simp only [true_iff]
    by_cases hfst : (relSegs (segsOf (resolveParts cwd baseRoot u req).1)
        (segsOf (resolveParts cwd baseRoot u req).2)).1 = []
    · right
      unfold escapes at hesc
      rw [hfst] at hesc
      simp only [List.isEmpty_nil, Bool.not_true, Bool.false_or] at hesc
      cases hsnd : (relSegs (segsOf (resolveParts cwd baseRoot u req).1)
          (segsOf (resolveParts cwd baseRoot u req).2)).2 with
      | nil => rw [hsnd] at hesc; simp at hesc
      | cons x0 r =>
        rw [hsnd] at hesc
        simp only at hesc
        refine ⟨x0, r, ?_, hesc⟩
        apply (relSegs_eq_nil _ _ _).1
        have : (relSegs (segsOf (resolveParts cwd baseRoot u req).1)
            (segsOf (resolveParts cwd baseRoot u req).2)) =
            ((relSegs (segsOf (resolveParts cwd baseRoot u req).1)
              (segsOf (resolveParts cwd baseRoot u req).2)).1,
             (relSegs (segsOf (resolveParts cwd baseRoot u req).1)
              (segsOf (resolveParts cwd baseRoot u req).2)).2) := rfl
        rw [this, hfst, hsnd]
    · left
      intro hex
      exact hfst ((relSegs_fst_nil _ _).2 hex)
  · rw [if_neg hesc]
    rw [Bool.not_eq_true] at hesc
    obtain ⟨hfst, hmatch⟩ := (escapes_false_iff _ _).1 hesc
    constructor
    · intro hcase
      cases hcase
    · rintro (hleft | hright)
      · exact absurd ((relSegs_fst_nil _ _).1 hfst) hleft
      · rcases hright with ⟨x0, t, hx, hdots⟩
        have h2 := (relSegs_eq_nil _ _ _).2 hx
        rw [h2] at hmatch
        simp only at hmatch
        rw [hdots] at hmatch
        cases hmatch

/-- C5 witness: a concrete escaping request (`"../z"` cancels the root) is
rejected, matching the amended characterization. -/
theorem c5_witness :
    isAbsG (gs "/w") = true ∧
    ((resolvePath (gs "/w") (gs "/base") uAlice [] (gs "a/b")).1 =
        .error .accessDenied ↔
      (¬ ∃ t, segsOf (resolveParts (gs "/w") (gs "/base") uAlice
          (gs "a/b")).1 ++ t =
          segsOf (resolveParts (gs "/w") (gs "/base") uAlice (gs "a/b")).2) ∨
      (∃ x0 t, segsOf (resolveParts (gs "/w") (gs "/base") uAlice
          (gs "a/b")).1 ++ (x0 :: t) =
          segsOf (resolveParts (gs "/w") (gs "/base") uAlice (gs "a/b")).2 ∧
          goHasPre x0 ['.', '.'] = true)) :=
  ⟨by decide,
   c5_escape_check (gs "/w") (gs "/base") uAlice [] (gs "a/b") (by decide)⟩

/-! ## Traces and state of the handlers -/

theorem resolvePath_trace (cwd baseRoot : GoStr) (u : User) (fs : Fs)
    (req : GoStr) :
    (resolvePath cwd baseRoot u fs req).2.2 =
      [.mkdirAll (resolveParts cwd baseRoot u req).1] := by
  simp only [resolvePath]
  split
  · rfl
  · split
    · rfl
    · rfl

theorem resolvePath_fst_fs (cwd baseRoot : GoStr) (u : User) (fs : Fs)
    (req : GoStr) :
    (resolvePath cwd baseRoot u fs req).2.1 =
      mkdirAllFs fs (resolveParts cwd baseRoot u req).1 := by
  simp only [resolvePath]
  split
  · rfl
  · split
    · rfl
    · rfl

theorem resolvePath_error_denied (cwd baseRoot : GoStr) (u : User) (fs : Fs)
    (req : GoStr) :
    ∀ e, (resolvePath cwd baseRoot u fs req).1 = .error e →
      e = GoErr.accessDenied := by
  intro e
  simp only [resolvePath]
  split
  · intro h
    injection h with h1
    exact h1.symm
  · split
    · intro h
      injection h with h1
      exact h1.symm
    · intro h
      cases h

theorem find?_cons_pos {A : Type} (p : A → Bool) (a : A) (l : List A)
    (h : p a = true) : (a :: l).find? p = some a := by
  simp [List.find?, h]

theorem find?_cons_neg {A : Type} (p : A → Bool) (a : A) (l : List A)
    (h : p a = false) : (a :: l).find? p = l.find? p := by
  simp [List.find?, h]

theorem find?_filter_ne (fs : Fs) (p q : GoStr) (h : ¬ p = q) :
    (fs.filter (fun kv => !(kv.1 == q))).find? (fun kv => kv.1 == p) =
      fs.find? (fun kv => kv.1 == p) := by
  induction fs with
  | nil => rfl
  | cons kv rest ih =>
    by_cases h1 : kv.1 = q
    · have hnp : (fun kv : GoStr × Node => kv.1 == p) kv = false := by
        simp [h1]
        exact fun hc => h hc.symm
      rw [List.filter_cons_of_neg (by simp [h1]), ih,
          find?_cons_neg (fun kv => kv.1 == p) kv rest hnp]
    · rw [List.filter_cons_of_pos (by simp [h1])]
      by_cases h2 : kv.1 = p
      · rw [find?_cons_pos (fun kv => kv.1 == p) kv _ (by simp [h2]),
            find?_cons_pos (fun kv => kv.1 == p) kv rest (by simp [h2])]
      · rw [find?_cons_neg (fun kv => kv.1 == p) kv _ (by simp [h2]),
            find?_cons_neg (fun kv => kv.1 == p) kv rest (by simp [h2]), ih]

theorem fsGet_fsSet (fs : Fs) (q p : GoStr) (nd : Node) :
    fsGet (fsSet fs q nd) p = if p = q then some nd else fsGet fs p := by
  unfold fsGet fsSet
  by_cases hpq : p = q
  · subst hpq
    rw [if_pos rfl, find?_cons_pos (fun kv => kv.1 == p) (p, nd) _ (by simp)]
    rfl
  · rw [if_neg hpq,
        find?_cons_neg (fun kv => kv.1 == p) (q, nd) _
          (by simp; exact fun hc => hpq hc.symm),
        find?_filter_ne fs p q hpq]

theorem fsGet_mkdirAllFs (fs : Fs) (q p : GoStr) (n : Node)
    (h : fsGet fs p = some n) : fsGet (mkdirAllFs fs q) p = some n := by
  unfold mkdirAllFs
  cases hq : fsGet fs q with
  | some _ => exact h
  | none =>
    rw [fsGet_fsSet]
    by_cases hpq : p = q
    · subst hpq
      rw [h] at hq
      cases hq
    · rw [if_neg hpq]
      exact h

theorem applySetstat_error (fs : Fs) (absPath : GoStr) (attrs : FileAttrs) :
    ∀ e, (applySetstat fs absPath attrs).1 = .error e → e = GoErr.notExist := by
  intro e h
  simp only [applySetstat] at h
  by_cases c1 : attrs.mode ≠ 0 ∧ fsGet fs absPath = none
  · rw [if_pos c1] at h
    injection h with h1
    exact h1.symm
  · rw [if_neg c1] at h
    by_cases c2 : (attrs.atime ≠ 0 ∨ attrs.mtime ≠ 0) ∧ fsGet fs absPath = none
    · rw [if_pos c2] at h
      injection h with h1
      exact h1.symm
    · rw [if_neg c2] at h
      by_cases c3 : (attrs.uid ≠ 0 ∨ attrs.gid ≠ 0) ∧ fsGet fs absPath = none
      · rw [if_pos c3] at h
        injection h with h1
        exact h1.symm
      · rw [if_neg c3] at h
        by_cases c4 : attrs.size > 0
        · rw [if_pos c4] at h
          cases hget : fsGet fs absPath with
          | none =>
            rw [hget] at h
            injection h with h1
            exact h1.symm
          | some nd =>
            rw [hget] at h
            cases nd with
            | regular sz => injection h
            | dir => injection h
            | special => injection h
        · rw [if_neg c4] at h
          injection h

/-- Every `Filecmd` trace begins with the root-provisioning `MkdirAll`
performed by path resolution — i.e. resolution (and its side effect) runs
before any capability check. -/
theorem Filecmd_trace_head (cwd baseRoot : GoStr) (u : User) (fs : Fs)
    (r : SftpRequest) :
    ∃ rest, (Filecmd cwd baseRoot u fs r).2.2 =
      Ev.mkdirAll (resolveParts cwd baseRoot u r.filepath).1 :: rest := by
  rcases hres : resolvePath cwd baseRoot u fs r.filepath with ⟨res, fs2, evs⟩
  have htr : evs = [Ev.mkdirAll (resolveParts cwd baseRoot u r.filepath).1] := by
    have h1 := resolvePath_trace cwd baseRoot u fs r.filepath
    rw [hres] at h1
    exact h1
  subst htr
  cases res with
  | error e =>
    simp only [Filecmd, hres]
    exact ⟨[], rfl⟩
  | ok pair =>
    obtain ⟨absPath, u2⟩ := pair
    simp only [Filecmd, hres]
    repeat first
      | exact ⟨[], rfl⟩
      | exact ⟨_, rfl⟩
      | split

/-- In `Filecmd`, a denial — a missing capability (`os.ErrPermission`) or
a resolution failure (access denied) — leaves the filesystem untouched
except for the idempotent root-provisioning `MkdirAll` of resolution: the
trace holds only `mkdirAll` events and every pre-existing entry survives
unchanged (in particular a rename's source). -/
theorem Filecmd_denied (cwd baseRoot : GoStr) (u : User) (fs : Fs)
    (r : SftpRequest) :
    ∀ e, (Filecmd cwd baseRoot u fs r).1 = .error e →
      (e = GoErr.permission ∨ e = GoErr.accessDenied) →
      ((∀ ev ∈ (Filecmd cwd baseRoot u fs r).2.2, ∃ p, ev = Ev.mkdirAll p) ∧
       (∀ p n, fsGet fs p = some n →
         fsGet (Filecmd cwd baseRoot u fs r).2.1 p = some n)) := by
  rcases hres : resolvePath cwd baseRoot u fs r.filepath with ⟨res, fs2, evs⟩
  have htr : evs = [Ev.mkdirAll (resolveParts cwd baseRoot u r.filepath).1] := by
    have h1 := resolvePath_trace cwd baseRoot u fs r.filepath
    rw [hres] at h1
    exact h1
  have hfs2 : fs2 = mkdirAllFs fs (resolveParts cwd baseRoot u r.filepath).1 := by
    have h1 := resolvePath_fst_fs cwd baseRoot u fs r.filepath
    rw [hres] at h1
    exact h1
  subst htr
  subst hfs2
  cases res with
  | error e0 =>
    simp only [Filecmd, hres]
    intro e he hpe
    constructor
    · intro ev hev
      have hev2 : ev ∈ [Ev.mkdirAll (resolveParts cwd baseRoot u r.filepath).1] :=
        hev
      simp only [List.mem_singleton] at hev2
      exact ⟨_, hev2⟩
    · intro p n hp
      exact fsGet_mkdirAllFs fs _ p n hp
  | ok pair =>
    obtain ⟨absPath, u2⟩ := pair
    simp only [Filecmd, hres]
    by_cases hm1 : r.method = SSH_FXP_REMOVE
    · rw [if_pos hm1]
      by_cases hb : (!hasPermission u2 PermDelete) = true
      · rw [if_pos hb]
        intro e he hpe
        constructor
        · intro ev hev
          have hev2 : ev ∈ [Ev.mkdirAll (resolveParts cwd baseRoot u r.filepath).1] :=
            hev
          simp only [List.mem_singleton] at hev2
          exact ⟨_, hev2⟩
        · intro p n hp
          exact fsGet_mkdirAllFs fs _ p n hp
      · rw [if_neg hb]
        cases hget : fsGet (mkdirAllFs fs
            (resolveParts cwd baseRoot u r.filepath).1) absPath with
        | none =>
          intro e he hpe
          injection he with h1
          subst h1
          rcases hpe with h2 | h2
          · cases h2
          · cases h2
        | some nd =>
          intro e he hpe
          injection he
    · rw [if_neg hm1]
      by_cases hm2 : r.method = SSH_FXP_RENAME
      · rw [if_pos hm2]
        by_cases hb : (!hasPermission u2 PermWrite) = true
        · rw [if_pos hb]
          intro e he hpe
          constructor
          · intro ev hev
            have hev2 : ev ∈ [Ev.mkdirAll (resolveParts cwd baseRoot u r.filepath).1] :=
              hev
            simp only [List.mem_singleton] at hev2
            exact ⟨_, hev2⟩
          · intro p n hp
            exact fsGet_mkdirAllFs fs _ p n hp
        · rw [if_neg hb]
          rcases hres2 : resolvePath cwd baseRoot u2
              (mkdirAllFs fs (resolveParts cwd baseRoot u r.filepath).1)
              r.target with ⟨res2, fs3, evs2⟩
          have htr2 : evs2 =
              [Ev.mkdirAll (resolveParts cwd baseRoot u2 r.target).1] := by
            have h1 := resolvePath_trace cwd baseRoot u2
              (mkdirAllFs fs (resolveParts cwd baseRoot u r.filepath).1) r.target
            rw [hres2] at h1
            exact h1
          have hfs3 : fs3 = mkdirAllFs
              (mkdirAllFs fs (resolveParts cwd baseRoot u r.filepath).1)
              (resolveParts cwd baseRoot u2 r.target).1 := by
            have h1 := resolvePath_fst_fs cwd baseRoot u2
              (mkdirAllFs fs (resolveParts cwd baseRoot u r.filepath).1) r.target
            rw [hres2] at h1
            exact h1
          subst htr2
          subst hfs3
          cases res2 with
          | error e2 =>
            intro e he hpe
            constructor
            · intro ev hev
              have hev2 : ev ∈
                  [Ev.mkdirAll (resolveParts cwd baseRoot u r.filepath).1] ++
                  [Ev.mkdirAll (resolveParts cwd baseRoot u2 r.target).1] := hev
              simp only [List.mem_append, List.mem_singleton] at hev2
              rcases hev2 with h3 | h3
              · exact ⟨_, h3⟩
              · exact ⟨_, h3⟩
            · intro p n hp
              exact fsGet_mkdirAllFs _ _ p n (fsGet_mkdirAllFs fs _ p n hp)
          | ok pair2 =>
            obtain ⟨newPath, u3⟩ := pair2
            dsimp only
            cases hget : fsGet (mkdirAllFs
                (mkdirAllFs fs (resolveParts cwd baseRoot u r.filepath).1)
                (resolveParts cwd baseRoot u2 r.target).1) absPath with
            | none =>
              intro e he hpe
              injection he with h1
              subst h1
              rcases hpe with h2 | h2
              · cases h2
              · cases h2
            | some nd =>
              intro e he hpe
              injection he
      · rw [if_neg hm2]
        by_cases hm3 : r.method = SSH_FXP_MKDIR
        · rw [if_pos hm3]
          by_cases hb : (!hasPermission u2 PermWrite) = true
          · rw [if_pos hb]
            intro e he hpe
            constructor
            · intro ev hev
              have hev2 : ev ∈ [Ev.mkdirAll (resolveParts cwd baseRoot u r.filepath).1] :=
                hev
              simp only [List.mem_singleton] at hev2
              exact ⟨_, hev2⟩
            · intro p n hp
              exact fsGet_mkdirAllFs fs _ p n hp
          · rw [if_neg hb]
            cases hget : fsGet (mkdirAllFs fs
                (resolveParts cwd baseRoot u r.filepath).1) absPath with
            | none =>
              intro e he hpe
              injection he
            | some nd =>
              cases nd with
              | regular sz =>
                intro e he hpe
                injection he with h1
                subst h1
                rcases hpe with h2 | h2
                · cases h2
                · cases h2
              | dir =>
                intro e he hpe
                injection he
              | special =>
                intro e he hpe
                injection he with h1
                subst h1
                rcases hpe with h2 | h2
                · cases h2
                · cases h2
        · rw [if_neg hm3]
          by_cases hm4 : r.method = SSH_FXP_RMDIR
          · rw [if_pos hm4]
            by_cases hb : (!hasPermission u2 PermDelete) = true
            · rw [if_pos hb]
              intro e he hpe
              constructor
              · intro ev hev
                have hev2 : ev ∈ [Ev.mkdirAll (resolveParts cwd baseRoot u r.filepath).1] :=
                  hev
                simp only [List.mem_singleton] at hev2
                exact ⟨_, hev2⟩
              · intro p n hp
                exact fsGet_mkdirAllFs fs _ p n hp
            · rw [if_neg hb]
              intro e he hpe
              injection he
          · rw [if_neg hm4]
            by_cases hm5 : r.method = SSH_FXP_SET_STAT
            · rw [if_pos hm5]
              by_cases hb : (!hasPermission u2 PermWrite) = true
              · rw [if_pos hb]
                intro e he hpe
                constructor
                · intro ev hev
                  have hev2 : ev ∈ [Ev.mkdirAll (resolveParts cwd baseRoot u r.filepath).1] :=
                    hev
                  simp only [List.mem_singleton] at hev2
                  exact ⟨_, hev2⟩
                · intro p n hp
                  exact fsGet_mkdirAllFs fs _ p n hp
              · rw [if_neg hb]
                cases hattrs : r.attrs with
                | none =>
                  intro e he hpe
                  injection he
                | some attrs =>
                  dsimp only
                  rcases happ : applySetstat (mkdirAllFs fs
                      (resolveParts cwd baseRoot u r.filepath).1) absPath attrs
                    with ⟨resS, evsS⟩
                  cases resS with
                  | error e2 =>
                    intro e he hpe
                    injection he with h1
                    subst h1
                    have hns := applySetstat_error (mkdirAllFs fs
                        (resolveParts cwd baseRoot u r.filepath).1) absPath attrs
                        e2 (by rw [happ])
                    subst hns
                    rcases hpe with h2 | h2
                    · cases h2
                    · cases h2
                  | ok fsS =>
                    intro e he hpe
                    injection he
            · rw [if_neg hm5]
              intro e he hpe
              injection he with h1
              subst h1
              rcases hpe with h2 | h2
              · cases h2
              · cases h2

theorem Fileread_denied (cwd baseRoot : GoStr) (u : User) (fs : Fs)
    (path : GoStr) (h : hasPermission u PermRead = false) :
    Fileread cwd baseRoot u fs path = (.error .permission, fs, []) := by
  unfold Fileread
  rw [if_pos (by rw [h]; rfl)]

theorem Filewrite_denied (cwd baseRoot : GoStr) (u : User) (fs : Fs)
    (path : GoStr) (h : hasPermission u PermWrite = false) :
    Filewrite cwd baseRoot u fs path = (.error .permission, fs, []) := by
  unfold Filewrite
  rw [if_pos (by rw [h]; rfl)]

theorem Filelist_denied (cwd baseRoot : GoStr) (u : User) (fs : Fs)
    (path : GoStr) (h : hasPermission u PermList = false) :
    Filelist cwd baseRoot u fs path = (.error .permission, fs, []) := by
  unfold Filelist
  rw [if_pos (by rw [h]; rfl)]

-- Concrete users for the closed statements below.
def uReadList : User :=
  { username := gs "rl", rootPath := gs "/base/rl", perms := 3,
    disabled := false, publicKey := none }
def uNone : User :=
  { username := gs "nb", rootPath := gs "/base/nb", perms := 0,
    disabled := false, publicKey := none }
def uReadOnly : User :=
  { username := gs "ro", rootPath := gs "/base/ro", perms := 1,
    disabled := false, publicKey := none }

/-- C2 counterexample: an identity with permissions Read|List (mask 3)
attempting a write operation (Mkdir) through `Filecmd` is denied — but the
filesystem has been touched: path resolution ran first and its
root-provisioning `MkdirAll` created the user root directory. -/
theorem c2_counterexample :
    hasPermission uReadList PermWrite = false ∧
    Filecmd (gs "/w") (gs "/base") uReadList []
      { method := SSH_FXP_MKDIR, filepath := gs "x", target := [],
        attrs := none } =
      (.error .permission, [(gs "/base/rl", Node.dir)],
       [.mkdirAll (gs "/base/rl")]) ∧
    (Filecmd (gs "/w") (gs "/base") uReadList []
      { method := SSH_FXP_MKDIR, filepath := gs "x", target := [],
        attrs := none }).2.1 ≠ ([] : Fs) := by decide

/-- C2 (amended): a capability or resolution failure prevents the
operation's own filesystem action.  `Filewrite` (which checks the
capability before resolving) touches nothing on denial; in `Filecmd` a
denial (permission or access-denied) leaves a trace consisting only of
the root-provisioning `mkdirAll` calls of path resolution and preserves
every pre-existing filesystem entry — in particular, a rename whose
target fails resolution performs no rename and leaves the source
untouched. -/
theorem c2_no_mutation_after_denial (cwd baseRoot : GoStr) (u : User)
    (fs : Fs) (path : GoStr) (r : SftpRequest) :
    (hasPermission u PermWrite = false →
      Filewrite cwd baseRoot u fs path = (.error .permission, fs, [])) ∧
    (∀ e, (Filecmd cwd baseRoot u fs r).1 = .error e →
      (e = GoErr.permission ∨ e = GoErr.accessDenied) →
      ((∀ ev ∈ (Filecmd cwd baseRoot u fs r).2.2, ∃ p, ev = Ev.mkdirAll p) ∧
       (∀ p n, fsGet fs p = some n →
         fsGet (Filecmd cwd baseRoot u fs r).2.1 p = some n))) :=
  ⟨Filewrite_denied cwd baseRoot u fs path,
   Filecmd_denied cwd baseRoot u fs r⟩

/-- C2 witness: a concrete denied upload touches nothing, and a concrete
rename whose target is `"../../escape"` fails with access denied while the
source entry survives. -/
theorem c2_witness :
    hasPermission uReadList PermWrite = false ∧
    Filewrite (gs "/w") (gs "/base") uReadList [] (gs "up.txt") =
      (.error .permission, [], []) ∧
    (Filecmd (gs "/w") (gs "/base") uAlice
        [(gs "/base/alice/f", Node.regular 9)]
        { method := SSH_FXP_RENAME, filepath := gs "f",
          target := gs "../../escape", attrs := none }).1 =
      .error .accessDenied ∧
    fsGet (Filecmd (gs "/w") (gs "/base") uAlice
        [(gs "/base/alice/f", Node.regular 9)]
        { method := SSH_FXP_RENAME, filepath := gs "f",
          target := gs "../../escape", attrs := none }).2.1
      (gs "/base/alice/f") = some (Node.regular 9) :=
  ⟨by decide,
   (c2_no_mutation_after_denial (gs "/w") (gs "/base") uReadList []
      (gs "up.txt")
      { method := SSH_FXP_MKDIR, filepath := gs "x", target := [],
        attrs := none }).1 (by decide),
   by decide,
   ((c2_no_mutation_after_denial (gs "/w") (gs "/base") uAlice
      [(gs "/base/alice/f", Node.regular 9)] (gs "up.txt")
      { method := SSH_FXP_RENAME, filepath := gs "f",
        target := gs "../../escape", attrs := none }).2
     GoErr.accessDenied (by decide) (by decide)).2
     (gs "/base/alice/f") (Node.regular 9) (by decide)⟩

/-- C3 counterexample: with an identity holding no capabilities at all, a
Remove request through `Filecmd` is denied for lack of permission — yet
the trace shows the root-provisioning `MkdirAll` of path resolution
already ran (and created the root): resolution is not gated behind the
capability check. -/
theorem c3_counterexample :
    hasPermission uNone PermDelete = false ∧
    Filecmd (gs "/w") (gs "/base") uNone []
      { method := SSH_FXP_REMOVE, filepath := gs "x", target := [],
        attrs := none } =
      (.error .permission, [(gs "/base/nb", Node.dir)],
       [.mkdirAll (gs "/base/nb")]) ∧
    (Filecmd (gs "/w") (gs "/base") uNone []
      { method := SSH_FXP_REMOVE, filepath := gs "x", target := [],
        attrs := none }).2.2 ≠ ([] : List Ev) := by decide

/-- C3 (amended): in `Fileread`, `Filewrite` and `Filelist` the
capability check precedes path resolution, so a denial happens with no
filesystem event at all; in `Filecmd`, path resolution — with its
root-provisioning `MkdirAll` side effect — always runs first, and the
per-method capability check follows it; the method's filesystem action
runs only after both have succeeded. -/
theorem c3_dispatch_order (cwd baseRoot : GoStr) (u : User) (fs : Fs)
    (path : GoStr) (r : SftpRequest) :
    (hasPermission u PermRead = false →
      Fileread cwd baseRoot u fs path = (.error .permission, fs, [])) ∧
    (hasPermission u PermWrite = false →
      Filewrite cwd baseRoot u fs path = (.error .permission, fs, [])) ∧
    (hasPermission u PermList = false →
      Filelist cwd baseRoot u fs path = (.error .permission, fs, [])) ∧
    (∃ rest, (Filecmd cwd baseRoot u fs r).2.2 =
      Ev.mkdirAll (resolveParts cwd baseRoot u r.filepath).1 :: rest) :=
  ⟨Fileread_denied cwd baseRoot u fs path,
   Filewrite_denied cwd baseRoot u fs path,
   Filelist_denied cwd baseRoot u fs path,
   Filecmd_trace_head cwd baseRoot u fs r⟩

/-- C3 witness: a concrete denied read has an empty trace, and a concrete
`Filecmd` trace begins with the provisioning `mkdirAll`. -/
theorem c3_witness :
    hasPermission uNone PermRead = false ∧
    Fileread (gs "/w") (gs "/base") uNone [] (gs "x") =
      (.error .permission, [], []) ∧
    (∃ rest, (Filecmd (gs "/w") (gs "/base") uAlice []
        { method := SSH_FXP_MKDIR, filepath := gs "d", target := [],
          attrs := none }).2.2 =
      Ev.mkdirAll (resolveParts (gs "/w") (gs "/base") uAlice (gs "d")).1 ::
        rest) :=
  ⟨by decide,
   (c3_dispatch_order (gs "/w") (gs "/base") uNone [] (gs "x")
      { method := SSH_FXP_MKDIR, filepath := gs "d", target := [],
        attrs := none }).1 (by decide),
   (c3_dispatch_order (gs "/w") (gs "/base") uAlice [] (gs "x")
      { method := SSH_FXP_MKDIR, filepath := gs "d", target := [],
        attrs := none }).2.2.2⟩

/-- C4 counterexample: a capability denial surfaces `os.ErrPermission`
while a sandbox-escape denial surfaces the distinct "access denied"
error — the two client-visible outcomes differ. -/
theorem c4_counterexample :
    (Fileread (gs "/w") (gs "/base") uNone [] (gs "x")).1 =
      .error .permission ∧
    (Fileread (gs "/w") (gs "/base") uReadOnly [] (gs "../x")).1 =
      .error .accessDenied ∧
    GoErr.permission ≠ GoErr.accessDenied := by decide

/-- C4 (amended): a denied operation's error identifies its cause — a
missing capability yields `os.ErrPermission`, a path-resolution or
sandbox-escape failure yields the distinct "access denied" error. -/
theorem c4_denial_errors (cwd baseRoot : GoStr) (u : User) (fs : Fs)
    (path : GoStr) :
    (hasPermission u PermRead = false →
      (Fileread cwd baseRoot u fs path).1 = .error .permission) ∧
    (hasPermission u PermRead = true →
      ∀ e, (resolvePath cwd baseRoot u fs path).1 = .error e →
        (Fileread cwd baseRoot u fs path).1 = .error .accessDenied) ∧
    GoErr.permission ≠ GoErr.accessDenied := by
  refine ⟨?_, ?_, by decide⟩
  · intro h
    rw [Fileread_denied cwd baseRoot u fs path h]
  · intro h e he
    have had := resolvePath_error_denied cwd baseRoot u fs path e he
    subst had
    unfold Fileread
    rw [if_neg (by rw [h]; simp)]
    rcases hres : resolvePath cwd baseRoot u fs path with ⟨res, fs2, evs⟩
    have he2 : res = .error .accessDenied := by
      rw [hres] at he
      exact he
    subst he2
    rfl

/-- C4 witness: the two concrete denial errors of the amended claim. -/
theorem c4_witness :
    hasPermission uNone PermRead = false ∧
    (Fileread (gs "/w") (gs "/base") uNone [] (gs "y")).1 =
      .error .permission ∧
    hasPermission uReadOnly PermRead = true ∧
    (Fileread (gs "/w") (gs "/base") uReadOnly [] (gs "../y")).1 =
      .error .accessDenied :=
  ⟨by decide,
   (c4_denial_errors (gs "/w") (gs "/base") uNone [] (gs "y")).1 (by decide),
   by decide,
   (c4_denial_errors (gs "/w") (gs "/base") uReadOnly [] (gs "../y")).2.1
     (by decide) GoErr.accessDenied (by decide)⟩

set_option maxRecDepth 4000 in
/-- C7: for every uint8 permission mask, `hasPermission` grants a single
capability in {Read=1, List=2, Write=4, Delete=8} exactly when the
corresponding bit is set; a zero mask grants nothing, and unknown or
reserved bits set in the mask never make an ungranted capability granted
(the answer for each capability equals its own bit, whatever the other
bits are). -/
theorem c7_permission_bits (u : User) (h : u.perms < 256) :
    (hasPermission u PermRead = u.perms.testBit 0) ∧
    (hasPermission u PermList = u.perms.testBit 1) ∧
    (hasPermission u PermWrite = u.perms.testBit 2) ∧
    (hasPermission u PermDelete = u.perms.testBit 3) ∧
    (u.perms = 0 →
      hasPermission u PermRead = false ∧ hasPermission u PermList = false ∧
      hasPermission u PermWrite = false ∧
      hasPermission u PermDelete = false) := by
  have key : ∀ m : Nat, m < 256 →
      ((m &&& 1 != 0) = m.testBit 0) ∧ ((m &&& 2 != 0) = m.testBit 1) ∧
      ((m &&& 4 != 0) = m.testBit 2) ∧ ((m &&& 8 != 0) = m.testBit 3) := by
    decide
  obtain ⟨k0, k1, k2, k3⟩ := key u.perms h
  refine ⟨k0, k1, k2, k3, fun h0 => ⟨?_, ?_, ?_, ?_⟩⟩ <;>
    simp [hasPermission, PermRead, PermList, PermWrite, PermDelete, h0]

/-- C7 witness: the Read|List mask (3) grants exactly its own bits. -/
theorem c7_witness :
    uReadList.perms < 256 ∧
    hasPermission uReadList PermRead = uReadList.perms.testBit 0 ∧
    hasPermission uReadList PermWrite = uReadList.perms.testBit 2 :=
  ⟨by decide, (c7_permission_bits uReadList (by decide)).1,
   (c7_permission_bits uReadList (by decide)).2.2.1⟩

/-- No truncate call hides among the chmod/chtimes/chown events of the
Setstat attribute application. -/
theorem truncate_notin_aux (ap : GoStr) (attrs : FileAttrs) (p : GoStr)
    (n : Nat) :
    Ev.truncate p n ∉
      ((if attrs.mode ≠ 0 then [Ev.chmod ap (attrs.mode &&& 511)] else []) ++
        (if attrs.atime ≠ 0 ∨ attrs.mtime ≠ 0 then
          [Ev.chtimes ap
            (if attrs.atime = 0 then attrs.mtime else attrs.atime)
            (if attrs.mtime = 0 then attrs.atime else attrs.mtime)]
         else []) ++
        (if attrs.uid ≠ 0 ∨ attrs.gid ≠ 0 then
          [Ev.chown ap attrs.uid attrs.gid] else [])) := by
  intro hmem
  rcases List.mem_append.mp hmem with h | h
  · rcases List.mem_append.mp h with h2 | h2
    · split at h2 <;> simp at h2
    · split at h2 <;> simp at h2
  · split at h <;> simp at h

/-- C8: in the set-attributes operation, a requested size of 0 never
truncates — the filesystem state is unchanged and no truncate call is
made; a requested size N > 0 truncates the target to N exactly when the
target is a regular file; a non-regular target is skipped (state
unchanged, no truncate call), not truncated. -/
theorem c8_setstat_size (fs : Fs) (absPath : GoStr) (attrs : FileAttrs) :
    (attrs.size = 0 →
      ((applySetstat fs absPath attrs).1 = .ok fs ∨
        ∃ e, (applySetstat fs absPath attrs).1 = .error e) ∧
      (∀ p n, Ev.truncate p n ∉ (applySetstat fs absPath attrs).2)) ∧
    (0 < attrs.size →
      (∀ sz, fsGet fs absPath = some (.regular sz) →
        (applySetstat fs absPath attrs).1 =
          .ok (fsSet fs absPath (.regular attrs.size))) ∧
      (∀ nd, fsGet fs absPath = some nd → (∀ sz, nd ≠ .regular sz) →
        (applySetstat fs absPath attrs).1 = .ok fs ∧
        (∀ p n, Ev.truncate p n ∉ (applySetstat fs absPath attrs).2))) := by
  simp only [applySetstat]
  by_cases c1 : attrs.mode ≠ 0 ∧ fsGet fs absPath = none
  · rw [if_pos c1]
    obtain ⟨c1a, c1b⟩ := c1
    constructor
    · intro _
      refine ⟨Or.inr ⟨_, rfl⟩, ?_⟩
      intro p n hmem
      split at hmem <;> simp at hmem
    · intro _
      constructor
      · intro sz hget
        rw [hget] at c1b
        cases c1b
      · intro nd hget _
        rw [hget] at c1b
        cases c1b
  · rw [if_neg c1]
    by_cases c2 : (attrs.atime ≠ 0 ∨ attrs.mtime ≠ 0) ∧ fsGet fs absPath = none
    · rw [if_pos c2]
      obtain ⟨c2a, c2b⟩ := c2
      constructor
      · intro _
        refine ⟨Or.inr ⟨_, rfl⟩, ?_⟩
        intro p n hmem
        rcases List.mem_append.mp hmem with h | h
        · split at h <;> simp at h
        · split at h <;> simp at h
      · intro _
        constructor
        · intro sz hget
          rw [hget] at c2b
          cases c2b
        · intro nd hget _
          rw [hget] at c2b
          cases c2b
    · rw [if_neg c2]
      by_cases c3 : (attrs.uid ≠ 0 ∨ attrs.gid ≠ 0) ∧ fsGet fs absPath = none
      · rw [if_pos c3]
        obtain ⟨c3a, c3b⟩ := c3
        constructor
        · intro _
          refine ⟨Or.inr ⟨_, rfl⟩, ?_⟩
          intro p n hmem
          exact truncate_notin_aux absPath attrs p n hmem
        · intro _
          constructor
          · intro sz hget
            rw [hget] at c3b
            cases c3b
          · intro nd hget _
            rw [hget] at c3b
            cases c3b
      · rw [if_neg c3]
        by_cases c4 : attrs.size > 0
        · rw [if_pos c4]
          cases hget : fsGet fs absPath with
          | none =>
            constructor
            · intro h0
              omega
            · intro _
              constructor
              · intro sz hg2
                cases hg2
              · intro nd hg2 _
                cases hg2
          | some nd =>
            cases nd with
            | regular sz0 =>
              constructor
              · intro h0
                omega
              · intro _
                constructor
                · intro sz hg2
                  rfl
                · intro nd2 hg2 hnreg
                  injection hg2 with h3
                  exact absurd h3.symm (hnreg sz0)
            | dir =>
              constructor
              · intro h0
                omega
              · intro _
                constructor
                · intro sz hg2
                  simp at hg2
                · intro nd2 hg2 hnreg
                  refine ⟨rfl, ?_⟩
                  intro p n hmem
                  exact truncate_notin_aux absPath attrs p n hmem
            | special =>
              constructor
              · intro h0
                omega
              · intro _
                constructor
                · intro sz hg2
                  simp at hg2
                · intro nd2 hg2 hnreg
                  refine ⟨rfl, ?_⟩
                  intro p n hmem
                  exact truncate_notin_aux absPath attrs p n hmem
        · rw [if_neg c4]
          constructor
          · intro _
            refine ⟨Or.inl rfl, ?_⟩
            intro p n hmem
            exact truncate_notin_aux absPath attrs p n hmem
          · intro hpos
            exact absurd hpos c4

/-- C8 witness: a concrete size-5 request truncates a regular file to 5
bytes, and a concrete size-0 request leaves the state unchanged. -/
theorem c8_witness :
    (0 : Nat) < 5 ∧
    fsGet [(gs "/r/f", Node.regular 2)] (gs "/r/f") =
      some (Node.regular 2) ∧
    (applySetstat [(gs "/r/f", Node.regular 2)] (gs "/r/f")
        { mode := 0, atime := 0, mtime := 0, uid := 0, gid := 0,
          size := 5 }).1 =
      .ok (fsSet [(gs "/r/f", Node.regular 2)] (gs "/r/f")
        (Node.regular 5)) ∧
    ((0 : Nat) = 0 ∧
      ((applySetstat [(gs "/r/f", Node.regular 2)] (gs "/r/f")
          { mode := 0, atime := 0, mtime := 0, uid := 0, gid := 0,
            size := 0 }).1 = .ok [(gs "/r/f", Node.regular 2)] ∨
        ∃ e, (applySetstat [(gs "/r/f", Node.regular 2)] (gs "/r/f")
          { mode := 0, atime := 0, mtime := 0, uid := 0, gid := 0,
            size := 0 }).1 = .error e)) :=
  ⟨by decide, by decide,
   ((c8_setstat_size [(gs "/r/f", Node.regular 2)] (gs "/r/f")
      { mode := 0, atime := 0, mtime := 0, uid := 0, gid := 0,
        size := 5 }).2 (by decide)).1 2 (by decide),
   rfl,
   ((c8_setstat_size [(gs "/r/f", Node.regular 2)] (gs "/r/f")
      { mode := 0, atime := 0, mtime := 0, uid := 0, gid := 0,
        size := 0 }).1 (by decide)).1⟩

/-- C9 counterexample: for an empty entry list, the first call at offset 0
returns zero entries without EOF — but the resulting offset is again 0
(zero entries were delivered), and the subsequent call at that offset
again returns zero entries *without* the end-of-sequence signal, contrary
to the claim. -/
theorem c9_counterexample :
    listAt ([] : List Nat) 8 0 = ([], false) ∧
    listAt ([] : List Nat) 8 (0 + (listAt ([] : List Nat) 8 0).1.length) =
      ([], false) ∧
    (listAt ([] : List Nat) 8
      (0 + (listAt ([] : List Nat) 8 0).1.length)).2 ≠ true := by decide

/-- C9 (amended): for an empty entry list, *every* call at offset 0
returns zero entries without end-of-sequence (the offset never advances,
so no later call at the resulting offset signals EOF either); a call on an
empty list at any offset ≥ 1, and a call on any list at an offset at or
beyond the entry count (apart from the empty-list offset-0 case), returns
end-of-sequence immediately with zero entries. -/
theorem c9_paging {α : Type} (fis : List α) (b k : Nat) :
    (fis = [] → listAt fis b 0 = ([], false)) ∧
    (fis = [] → 1 ≤ k → listAt fis b k = ([], true)) ∧
    (fis.length ≤ k → ¬(fis = [] ∧ k = 0) → listAt fis b k = ([], true)) := by
  refine ⟨?_, ?_, ?_⟩
  · intro h
    subst h
    simp [listAt]
  · intro h hk
    subst h
    unfold listAt
    rw [if_neg (by rintro ⟨_, h2⟩; omega), if_pos (by simp)]
  · intro h1 h2
    unfold listAt
    rw [if_neg (fun hcon =>
          h2 ⟨List.length_eq_zero.mp hcon.1, hcon.2⟩),
        if_pos h1]

/-- C9 witness: a concrete past-the-end call reports EOF immediately. -/
theorem c9_witness :
    ([3, 4] : List Nat).length ≤ 7 ∧
    ¬(([3, 4] : List Nat) = [] ∧ (7 : Nat) = 0) ∧
    listAt ([3, 4] : List Nat) 5 7 = ([], true) :=
  ⟨by decide, by decide,
   (c9_paging [3, 4] 5 7).2.2 (by decide) (by decide)⟩

theorem drive_correct_aux {α : Type} (fis : List α) (b : Nat) (hb : 1 ≤ b)
    (hne : fis ≠ []) :
    ∀ fuel k, k ≤ fis.length → fis.length < k + fuel →
      drive fis b k fuel = (fis.drop k, true) := by
  intro fuel
  induction fuel with
  | zero =>
    intro k h1 h2
    omega
  | succ fuel ih =>
    intro k hk hfuel
    by_cases hend : fis.length ≤ k
    · have hkeq : k = fis.length := le_antisymm hk hend
      subst hkeq
      have hlist : listAt fis b fis.length = ([], true) := by
        unfold listAt
        rw [if_neg (fun hcon => hne (List.length_eq_zero.mp hcon.1)),
            if_pos (le_refl _)]
      simp [drive, hlist, List.drop_length]
    · push_neg at hend
      have hchunk : listAt fis b k = ((fis.drop k).take b,
          decide (((fis.drop k).take b).length < b)) := by
        unfold listAt
        rw [if_neg (by rintro ⟨ha, _⟩; omega), if_neg (by omega)]
      by_cases hbig : k + b ≤ fis.length
      · have hchlen : ((fis.drop k).take b).length = b := by
          simp [List.length_take, List.length_drop]
          omega
        have hjoin : (fis.drop k).take b ++ fis.drop (k + b) = fis.drop k := by
          have hdd : fis.drop (k + b) = (fis.drop k).drop b := by
            rw [List.drop_drop]
            try rw [Nat.add_comm]
          rw [hdd, List.take_append_drop]
        simp only [drive, hchunk]
        rw [if_neg (by simp [hchlen])]
        rw [hchlen, ih (k + b) (by omega) (by omega)]
        simp [hjoin]
      · push_neg at hbig
        have hchunk2 : (fis.drop k).take b = fis.drop k := by
          apply List.take_of_length_le
          simp [List.length_drop]
          omega
        simp only [drive, hchunk]
        rw [if_pos (by simp [List.length_take, List.length_drop]; omega)]
        rw [hchunk2]

/-- C10: paging a non-empty listing with a non-empty buffer, starting at
offset 0 and advancing by the count returned each time, is exhaustive and
non-duplicating: the concatenation of the returned chunks is exactly the
entry list, in order, and end-of-sequence is reported exactly when the
entries are exhausted. -/
theorem c10_paging_complete {α : Type} (fis : List α) (b : Nat)
    (hne : fis ≠ []) (hb : 1 ≤ b) :
    drive fis b 0 (fis.length + 1) = (fis, true) := by
  have h := drive_correct_aux fis b hb hne (fis.length + 1) 0 (by omega)
    (by omega)
  simpa using h

/-- C10 witness: a concrete three-entry listing paged two at a time. -/
theorem c10_witness :
    ([10, 20, 30] : List Nat) ≠ [] ∧ (1 : Nat) ≤ 2 ∧
    drive ([10, 20, 30] : List Nat) 2 0 4 = ([10, 20, 30], true) :=
  ⟨by decide, by decide, c10_paging_complete [10, 20, 30] 2 (by decide)
    (by decide)⟩

/-- C6: public-key authentication succeeds iff the user is found, not
disabled, has stored key material that parses as a single authorized-key
line, and the canonical wire (marshaled) encoding of the presented key is
byte-for-byte equal to that of the stored key — so the outcome depends on
the stored text only through its parse, not its textual formatting; it
fails with the corresponding error when the user is missing, disabled,
keyless, or the stored key does not parse. -/
theorem c6_pubkey_auth (K : Type) (fetch : GoStr → Option User)
    (parse : GoStr → Option K) (marshal : K → List Nat)
    (username : GoStr) (key : K) :
    ((∃ out, publicKeyCallback fetch parse marshal username key = .ok out) ↔
      (∃ u stored k, fetch username = some u ∧ u.disabled = false ∧
        u.publicKey = some stored ∧ parse stored = some k ∧
        marshal key = marshal k)) ∧
    (fetch username = none →
      publicKeyCallback fetch parse marshal username key =
        .error .userNotFound) ∧
    (∀ u, fetch username = some u → u.disabled = true →
      publicKeyCallback fetch parse marshal username key =
        .error .userDisabled) ∧
    (∀ u, fetch username = some u → u.disabled = false →
      u.publicKey = none →
      publicKeyCallback fetch parse marshal username key =
        .error .noPublicKey) ∧
    (∀ u stored, fetch username = some u → u.disabled = false →
      u.publicKey = some stored → parse stored = none →
      publicKeyCallback fetch parse marshal username key =
        .error .invalidPublicKey) := by
  refine ⟨?_, ?_, ?_, ?_, ?_⟩
  · constructor
    · rintro ⟨out, hout⟩
      unfold publicKeyCallback at hout
      cases hfetch : fetch username with
      | none =>
        rw [hfetch] at hout
        dsimp only at hout
        cases hout
      | some u =>
        rw [hfetch] at hout
        dsimp only at hout
        by_cases hdis : u.disabled = true
        · rw [if_pos hdis] at hout
          cases hout
        · rw [if_neg hdis] at hout
          have hdis2 : u.disabled = false := by simpa using hdis
          cases hpk : u.publicKey with
          | none =>
            rw [hpk] at hout
            dsimp only at hout
            cases hout
          | some stored =>
            rw [hpk] at hout
            dsimp only at hout
            cases hparse : parse stored with
            | none =>
              rw [hparse] at hout
              dsimp only at hout
              cases hout
            | some k =>
              rw [hparse] at hout
              dsimp only at hout
              by_cases hmar : marshal key = marshal k
              · exact ⟨u, stored, k, rfl, hdis2, hpk, hparse, hmar⟩
              · rw [if_neg hmar] at hout
                cases hout
    · rintro ⟨u, stored, k, hfetch, hdis, hpk, hparse, hmar⟩
      refine ⟨u.username, ?_⟩
      unfold publicKeyCallback
      rw [hfetch]
      dsimp only
      rw [if_neg (by rw [hdis]; simp), hpk]
      dsimp only
      rw [hparse]
      dsimp only
      rw [if_pos hmar]
  · intro hfetch
    unfold publicKeyCallback
    rw [hfetch]
  · intro u hfetch hdis
    unfold publicKeyCallback
    rw [hfetch]
    dsimp only
    rw [if_pos hdis]
  · intro u hfetch hdis hpk
    unfold publicKeyCallback
    rw [hfetch]
    dsimp only
    rw [if_neg (by rw [hdis]; simp), hpk]
  · intro u stored hfetch hdis hpk hparse
    unfold publicKeyCallback
    rw [hfetch]
    dsimp only
    rw [if_neg (by rw [hdis]; simp), hpk]
    dsimp only
    rw [hparse]

-- A stored user with key material, for the witness below.
def uKeyed : User :=
  { username := gs "alice", rootPath := gs "/base/alice", perms := 15,
    disabled := false,
    publicKey := some (gs "ssh-ed25519 AAAAC3Nza alice@host") }

/-- C6 witness: with a parser that ignores the trailing comment and a
concrete wire encoding, authentication succeeds exactly per the
characterization, and an unknown user fails. -/
theorem c6_witness :
    (∃ out, publicKeyCallback (K := Nat) (fun _ => some uKeyed)
      (fun _ => some 7) (fun k => [k]) (gs "alice") 7 = .ok out) ∧
    ((fun _ : GoStr => (none : Option User)) (gs "bob") = none ∧
      publicKeyCallback (K := Nat) (fun _ => none) (fun _ => some 7)
        (fun k => [k]) (gs "bob") 7 = .error .userNotFound) :=
  ⟨(c6_pubkey_auth Nat (fun _ => some uKeyed) (fun _ => some 7)
      (fun k => [k]) (gs "alice") 7).1.mpr
    ⟨uKeyed, gs "ssh-ed25519 AAAAC3Nza alice@host", 7, rfl, rfl, rfl, rfl,
     rfl⟩,
   rfl,
   (c6_pubkey_auth Nat (fun _ => none) (fun _ => some 7) (fun k => [k])
      (gs "bob") 7).2.1 rfl⟩
